import Mathlib

/-!
Shallow embedding of the go-mask repository (src/mask.go): a reflection-based
deep copy engine that applies caller-defined masking hooks while copying.

Go runtime values are modelled by the inductive `Val`.  Pointers carry the
name of their pointee type and an optional address into an explicit heap
(a `List Val`); a `none` address is a nil pointer.  A nil `interface{}`
slot (an invalid `reflect.Value`) is `Val.invalid`.  Struct fields carry
their name, exported flag, current value and the zero value of their
declared type (`reflect.New` produces a zeroed struct).  Slices distinguish
nil (`none`) from present (`some elems`).  Functions, channels and unsafe
pointers are the unsupported kinds.
-/

inductive Val : Type where
  | atom (ty : String) (data : String)
  | arr (ty : String) (ety : String) (elems : List Val)
  | slice (ty : String) (elems : Option (List Val))
  | mp (ty : String) (entries : List (Val × Val))
  | ptr (ety : String) (addr : Option Nat)
  | strct (ty : String) (fields : List (String × Bool × Val × Val))
  | func
  | chan
  | unsafeptr
  | invalid

mutual

/-- Structural equality on values (Go `==` on map keys in the model). -/
def Val.beq : Val → Val → Bool
  | .atom t d, .atom t' d' => t == t' && d == d'
  | .arr t e l, .arr t' e' l' => t == t' && e == e' && Val.beqL l l'
  | .slice t none, .slice t' none => t == t'
  | .slice t (some l), .slice t' (some l') => t == t' && Val.beqL l l'
  | .mp t l, .mp t' l' => t == t' && Val.beqP l l'
  | .ptr e none, .ptr e' none => e == e'
  | .ptr e (some a), .ptr e' (some a') => e == e' && a == a'
  | .strct t l, .strct t' l' => t == t' && Val.beqF l l'
  | .func, .func => true
  | .chan, .chan => true
  | .unsafeptr, .unsafeptr => true
  | .invalid, .invalid => true
  | _, _ => false

def Val.beqL : List Val → List Val → Bool
  | [], [] => true
  | v :: l, v' :: l' => Val.beq v v' && Val.beqL l l'
  | _, _ => false

def Val.beqP : List (Val × Val) → List (Val × Val) → Bool
  | [], [] => true
  | (k, v) :: l, (k', v') :: l' => Val.beq k k' && Val.beq v v' && Val.beqP l l'
  | _, _ => false

def Val.beqF : List (String × Bool × Val × Val) → List (String × Bool × Val × Val) → Bool
  | [], [] => true
  | (n, e, v, z) :: l, (n', e', v', z') :: l' =>
    n == n' && e == e' && Val.beq v v' && Val.beq z z' && Val.beqF l l'
  | _, _ => false

end

/-- Whether a value is the invalid value (a `reflect.Value` for which
`IsValid` reports false, i.e. a nil interface). -/
def Val.isInvalid : Val → Bool
  | .invalid => true
  | _ => false

/-- Errors produced by the engine (`fmt.Errorf` calls in mask.go), kept
structured so that wrapping context (index / key / field name) is visible. -/
inductive Err : Type where
  | unsupported (x : Val)
  | notPrimitive (x : Val)
  | notSlice (x : Val)
  | notMap (x : Val)
  | notPtr (x : Val)
  | notStruct (x : Val)
  | notArray (x : Val)
  | hookOut (n : Nat)
  | hookTy (want got : String)
  | sliceItem (i : Nat) (e : Err)
  | mapItem (k : Val) (e : Err)
  | mapKey (k : Val) (e : Err)
  | ptrElem (e : Err)
  | structField (name : String) (e : Err)
  | arrayItem (i : Nat) (e : Err)

/-- Trace of hook invocations (ghost instrumentation used to reason about
when `MaskXXX` methods are called). `mutEv` records a mutating (pointer
receiver) hook invocation on the copy cell at the given address; `transEv`
records a transforming (value receiver) hook invocation for a type name. -/
inductive Ev : Type where
  | mutEv (ety : String) (addr : Nat)
  | transEv (ty : String)
deriving DecidableEq

/-- Engine state: the heap (original cells first, copies appended after),
the per-call pointer registry (`ptrs` in mask.go, original address to
already-produced copy pointer), and the ghost hook-invocation trace. -/
structure St : Type where
  heap : List Val
  reg : List (Nat × Val)
  tr : List Ev

/-- Outcome of an engine step: a value, an error (returned as Go `error`),
a Go runtime panic, or fuel exhaustion (an artifact of the embedding; the
Go recursion has no such case). -/
inductive ResG (α : Type) : Type where
  | ok (a : α)
  | err (e : Err)
  | panicked (m : String)
  | fuelOut

abbrev Res := ResG Val

/-- The value-receiver `MaskXXX` method of a type, as seen by reflection:
its declared number of results, the name of its declared result type, and
the function actually run by `Call`. -/
structure MethodSig : Type where
  numOut : Nat
  outName : String
  fn : Val → Val

/-- Caller-defined hooks. `ptrMasker n` says whether the pointer type
`*n` implements the `Masker` interface (pointer-receiver `MaskXXX()` with
no results); `mutate n` is that hook's in-place effect on the pointee.
`valMethod n` is the value method set lookup `MethodByName("MaskXXX")`
for the defined type named `n`. -/
structure HookEnv : Type where
  ptrMasker : String → Bool
  mutate : String → Val → Val
  valMethod : String → Option MethodSig

/-- The hook-free environment: no type implements any hook. -/
def noHooks : HookEnv where
  ptrMasker := fun _ => false
  mutate := fun _ v => v
  valMethod := fun _ => none

/-- `reflect.Type.Name()` of a value's dynamic type. Pointer types and
the unsupported kinds are unnamed here (only defined non-pointer types can
carry a value-receiver `MaskXXX`). -/
def tyName : Val → String
  | .atom ty _ => ty
  | .arr ty _ _ => ty
  | .slice ty _ => ty
  | .mp ty _ => ty
  | .strct ty _ => ty
  | _ => ""

/-- Dynamic type of a value, as compared by the `out.(T)` assertion at the
end of `Mask`. -/
inductive Ty : Type where
  | atomT (n : String)
  | arrT (n : String) (len : Nat) (ety : String)
  | sliceT (n : String)
  | mapT (n : String)
  | ptrT (ety : String)
  | structT (n : String)
  | funcT
  | chanT
  | unsafeT
  | invalidT
deriving DecidableEq

def tyOf : Val → Ty
  | .atom ty _ => .atomT ty
  | .arr ty ety es => .arrT ty es.length ety
  | .slice ty _ => .sliceT ty
  | .mp ty _ => .mapT ty
  | .ptr ety _ => .ptrT ety
  | .strct ty _ => .structT ty
  | .func => .funcT
  | .chan => .chanT
  | .unsafeptr => .unsafeT
  | .invalid => .invalidT

/-- Zero value of a value's dynamic type (`var out T` in `Mask`):
atoms zero their payload, slices become nil, maps empty, pointers nil,
structs take each field's declared zero. -/
def zeroVal : Val → Val
  | .atom ty _ => .atom ty ""
  | .arr ty ety es => .arr ty ety (es.attach.map fun ⟨v, _⟩ => zeroVal v)
  | .slice ty _ => .slice ty none
  | .mp ty _ => .mp ty []
  | .ptr ety _ => .ptr ety none
  | .strct ty fs => .strct ty (fs.map fun f => (f.1, f.2.1, f.2.2.2, f.2.2.2))
  | .func => .func
  | .chan => .chan
  | .unsafeptr => .unsafeptr
  | .invalid => .invalid
decreasing_by
  simp_wf
  have := List.sizeOf_lt_of_mem ‹_›
  omega

/-- `_primitive` from mask.go: returns the input unchanged after
defensively rejecting composite kinds. -/
def _primitive (x : Val) (σ : St) : Res × St :=
  match x with
  | .arr _ _ _ | .chan | .func | .mp _ _ | .ptr _ _ | .slice _ _
  | .strct _ _ | .unsafeptr => (.err (.notPrimitive x), σ)
  | _ => (.ok x, σ)

/-- The `// mask value` half of `_mask`: look up the value method
`MaskXXX` of the copy's type, validate its signature (exactly one result
whose declared type name equals the receiver type's name), and replace the
copy with the call's result. -/
def maskValue (env : HookEnv) (x : Val) (σ : St) : Res × St :=
  match (if tyName x = "" then none else env.valMethod (tyName x)) with
  | none => (.ok x, σ)
  | some sig =>
    if sig.numOut ≠ 1 then (.err (.hookOut sig.numOut), σ)
    else if sig.outName ≠ tyName x then (.err (.hookTy (tyName x) sig.outName), σ)
    else (.ok (sig.fn x), { σ with tr := σ.tr ++ [.transEv (tyName x)] })

/-- `_mask` from mask.go: the hook invoker, applied to a freshly produced
copy.  Pointer-shaped copies (non-nil, whose type implements `Masker`) get
the mutating hook invoked through the pointer; all other copies go through
`maskValue`. -/
def _mask (env : HookEnv) (x : Val) (σ : St) : Res × St :=
  match x with
  | .ptr ety a? =>
    match a? with
    | none => (.ok x, σ)
    | some a =>
      if env.ptrMasker ety then
        (.ok x, { σ with heap := σ.heap.set a (env.mutate ety (σ.heap.getD a .invalid)),
                         tr := σ.tr ++ [.mutEv ety a] })
      else (.ok x, σ)
  | _ => maskValue env x σ

/-- Replace (or add) a key in the copied map, as Go's map assignment does. -/
def mapSet (entries : List (Val × Val)) (k item : Val) : List (Val × Val) :=
  if entries.any fun e => Val.beq e.1 k then
    entries.map fun e => if Val.beq e.1 k then (e.1, item) else e
  else entries ++ [(k, item)]

/-- `reflect.Value.SetMapIndex` with an invalid elem deletes the key. -/
def mapDel (entries : List (Val × Val)) (k : Val) : List (Val × Val) :=
  entries.filter fun e => ! Val.beq e.1 k

/- The handlers below take the engine's recursive entry point (`_anything`
at the remaining fuel) as the parameter `go`, mirroring the mutual
recursion of mask.go while keeping the definitions structurally
recursive. -/

/-- `_slice` from mask.go: `reflect.MakeSlice` of the same type and length
(so a nil source yields a present zero-length copy), each element deep
copied; an invalid element result is stored as-is (the `iv.IsValid` guard
skips the `Set`, leaving the zero of the element type, which in every case
reachable from Go is the nil interface). -/
def _sliceItems (go : Val → St → Res × St) :
    List Val → Nat → St → ResG (List Val) × St
  | [], _, σ => (.ok [], σ)
  | v :: rest, i, σ =>
    match go v σ with
    | (.ok item, σ₁) =>
      match _sliceItems go rest (i + 1) σ₁ with
      | (.ok items, σ₂) => (.ok (item :: items), σ₂)
      | (.err e, σ₂) => (.err e, σ₂)
      | (.panicked m, σ₂) => (.panicked m, σ₂)
      | (.fuelOut, σ₂) => (.fuelOut, σ₂)
    | (.err e, σ₁) => (.err (.sliceItem i e), σ₁)
    | (.panicked m, σ₁) => (.panicked m, σ₁)
    | (.fuelOut, σ₁) => (.fuelOut, σ₁)

def _slice (go : Val → St → Res × St) (x : Val) (σ : St) : Res × St :=
  match x with
  | .slice ty o =>
    match _sliceItems go (o.getD []) 0 σ with
    | (.ok items, σ') => (.ok (.slice ty (some items)), σ')
    | (.err e, σ') => (.err e, σ')
    | (.panicked m, σ') => (.panicked m, σ')
    | (.fuelOut, σ') => (.fuelOut, σ')
  | other => (.err (.notSlice other), σ)

/-- `_map` from mask.go: a new map of the same type; for every entry the
value is copied first, then the key; `SetMapIndex` panics on an invalid
key and deletes the key when the copied value is invalid. -/
def _mapItems (go : Val → St → Res × St) :
    List (Val × Val) → List (Val × Val) → St → ResG (List (Val × Val)) × St
  | [], dc, σ => (.ok dc, σ)
  | (k0, v0) :: rest, dc, σ =>
    match go v0 σ with
    | (.ok item, σ₁) =>
      match go k0 σ₁ with
      | (.ok k, σ₂) =>
        match k with
        | .invalid => (.panicked "reflect: SetMapIndex using zero Value key", σ₂)
        | _ =>
          match item with
          | .invalid => _mapItems go rest (mapDel dc k) σ₂
          | _ => _mapItems go rest (mapSet dc k item) σ₂
      | (.err e, σ₂) => (.err (.mapKey k0 e), σ₂)
      | (.panicked m, σ₂) => (.panicked m, σ₂)
      | (.fuelOut, σ₂) => (.fuelOut, σ₂)
    | (.err e, σ₁) => (.err (.mapItem k0 e), σ₁)
    | (.panicked m, σ₁) => (.panicked m, σ₁)
    | (.fuelOut, σ₁) => (.fuelOut, σ₁)

def _map (go : Val → St → Res × St) (x : Val) (σ : St) : Res × St :=
  match x with
  | .mp ty entries =>
    match _mapItems go entries [] σ with
    | (.ok dc, σ') => (.ok (.mp ty dc), σ')
    | (.err e, σ') => (.err e, σ')
    | (.panicked m, σ') => (.panicked m, σ')
    | (.fuelOut, σ') => (.fuelOut, σ')
  | other => (.err (.notMap other), σ)

/-- `_pointer` from mask.go: nil pointers map to nil; an address already in
the registry returns the previously produced copy pointer; otherwise a new
cell is allocated, registered before recursing (the cycle-safety
invariant), the pointee copied through the engine, and the cell set to the
result unless that result is invalid. -/
def _pointer (go : Val → St → Res × St) (x : Val) (σ : St) : Res × St :=
  match x with
  | .ptr ety a? =>
    match a? with
    | none => (.ok (.ptr ety none), σ)
    | some a =>
      match σ.reg.lookup a with
      | some dc => (.ok dc, σ)
      | none =>
        let b := σ.heap.length
        let dc := Val.ptr ety (some b)
        let σ₁ : St := { σ with heap := σ.heap ++ [.invalid], reg := (a, dc) :: σ.reg }
        match go (σ.heap.getD a .invalid) σ₁ with
        | (.ok item, σ₂) =>
          match item with
          | .invalid => (.ok dc, σ₂)
          | _ => (.ok dc, { σ₂ with heap := σ₂.heap.set b item })
        | (.err e, σ₂) => (.err (.ptrElem e), σ₂)
        | (.panicked m, σ₂) => (.panicked m, σ₂)
        | (.fuelOut, σ₂) => (.fuelOut, σ₂)
  | other => (.err (.notPtr other), σ)

/-- `_struct` from mask.go: a zeroed new struct of the same type; exported
fields are deep copied and set (a panic if the copy is an invalid value,
since `Set` has no validity guard here); unexported fields are skipped and
keep their zero value. -/
def _structFields (go : Val → St → Res × St) :
    List (String × Bool × Val × Val) → St →
    ResG (List (String × Bool × Val × Val)) × St
  | [], σ => (.ok [], σ)
  | (n, ex, v, z) :: rest, σ =>
    if ex then
      match go v σ with
      | (.ok item, σ₁) =>
        match item with
        | .invalid => (.panicked "reflect: Set using zero Value argument", σ₁)
        | _ =>
          match _structFields go rest σ₁ with
          | (.ok fs, σ₂) => (.ok ((n, ex, item, z) :: fs), σ₂)
          | (.err e, σ₂) => (.err e, σ₂)
          | (.panicked m, σ₂) => (.panicked m, σ₂)
          | (.fuelOut, σ₂) => (.fuelOut, σ₂)
      | (.err e, σ₁) => (.err (.structField n e), σ₁)
      | (.panicked m, σ₁) => (.panicked m, σ₁)
      | (.fuelOut, σ₁) => (.fuelOut, σ₁)
    else
      match _structFields go rest σ with
      | (.ok fs, σ₁) => (.ok ((n, ex, z, z) :: fs), σ₁)
      | (.err e, σ₁) => (.err e, σ₁)
      | (.panicked m, σ₁) => (.panicked m, σ₁)
      | (.fuelOut, σ₁) => (.fuelOut, σ₁)

def _struct (go : Val → St → Res × St) (x : Val) (σ : St) : Res × St :=
  match x with
  | .strct ty fs =>
    match _structFields go fs σ with
    | (.ok fs', σ') => (.ok (.strct ty fs'), σ')
    | (.err e, σ') => (.err e, σ')
    | (.panicked m, σ') => (.panicked m, σ')
    | (.fuelOut, σ') => (.fuelOut, σ')
  | other => (.err (.notStruct other), σ)

/-- `_array` from mask.go: a new array allocated with
`reflect.ArrayOf(size, t.Elem())` — note the defined type name is lost —
each element deep copied and set (panic on an invalid element, no guard). -/
def _arrayItems (go : Val → St → Res × St) :
    List Val → Nat → St → ResG (List Val) × St
  | [], _, σ => (.ok [], σ)
  | v :: rest, i, σ =>
    match go v σ with
    | (.ok item, σ₁) =>
      match item with
      | .invalid => (.panicked "reflect: Set using zero Value argument", σ₁)
      | _ =>
        match _arrayItems go rest (i + 1) σ₁ with
        | (.ok items, σ₂) => (.ok (item :: items), σ₂)
        | (.err e, σ₂) => (.err e, σ₂)
        | (.panicked m, σ₂) => (.panicked m, σ₂)
        | (.fuelOut, σ₂) => (.fuelOut, σ₂)
    | (.err e, σ₁) => (.err (.arrayItem i e), σ₁)
    | (.panicked m, σ₁) => (.panicked m, σ₁)
    | (.fuelOut, σ₁) => (.fuelOut, σ₁)

def _array (go : Val → St → Res × St) (x : Val) (σ : St) : Res × St :=
  match x with
  | .arr _ ety es =>
    match _arrayItems go es 0 σ with
    | (.ok items, σ') => (.ok (.arr "" ety items), σ')
    | (.err e, σ') => (.err e, σ')
    | (.panicked m, σ') => (.panicked m, σ')
    | (.fuelOut, σ') => (.fuelOut, σ')
  | other => (.err (.notArray other), σ)

/-- Chain a copier's result into the hook invoker, as `_anything` does. -/
def andMask (env : HookEnv) : Res × St → Res × St
  | (.ok out, σ') => _mask env out σ'
  | other => other

/-- The `copiers` dispatch map from mask.go, keyed by the value's kind:
`none` for the kinds with no registered copier (Func, Chan, UnsafePointer,
Interface). -/
def copiers (go : Val → St → Res × St) (x : Val) : Option (St → Res × St) :=
  match x with
  | .atom _ _ => some (fun σ => _primitive x σ)
  | .arr _ _ _ => some (fun σ => _array go x σ)
  | .slice _ _ => some (fun σ => _slice go x σ)
  | .mp _ _ => some (fun σ => _map go x σ)
  | .ptr _ _ => some (fun σ => _pointer go x σ)
  | .strct _ _ => some (fun σ => _struct go x σ)
  | .func => none
  | .chan => none
  | .unsafeptr => none
  | .invalid => none

/-- `_anything` from mask.go: the engine entry point.  Invalid values are
returned unchanged; supported kinds are dispatched to their copier and the
result passed through `_mask`; unsupported kinds produce an error.  The
fuel argument only bounds recursion depth (the Go original recurses
without fuel; every terminating Go run is reproduced by any sufficiently
large fuel). -/
def _anything (env : HookEnv) : Nat → Val → St → Res × St
  | 0, _, σ => (.fuelOut, σ)
  | f + 1, x, σ =>
    match x with
    | .invalid => (.ok x, σ)
    | _ =>
      match copiers (fun v σ' => _anything env f v σ') x with
      | some c => andMask env (c σ)
      | none => (.err (.unsupported x), σ)

/-- Result of a top-level `Mask`/`Must` call: a normal return of a value
together with the returned `error`, a panic, or fuel exhaustion. -/
inductive MRes : Type where
  | ret (v : Val) (e : Option Err)
  | panicked (m : String)
  | fuelOut

/-- `Mask` from mask.go: run the engine on a fresh registry over the given
heap; on error (or a nil result) return the zero value of the input's
type; otherwise perform the `out.(T)` assertion, which panics when the
copy's dynamic type differs from the input's. -/
def Mask (env : HookEnv) (fuel : Nat) (H : List Val) (x : Val) : MRes × St :=
  match _anything env fuel x ⟨H, [], []⟩ with
  | (.ok out, σ') =>
    match out with
    | .invalid => (.ret (zeroVal x) none, σ')
    | _ =>
      if tyOf out = tyOf x then (.ret out none, σ')
      else (.panicked "interface conversion", σ')
  | (.err e, σ') => (.ret (zeroVal x) (some e), σ')
  | (.panicked m, σ') => (.panicked m, σ')
  | (.fuelOut, σ') => (.fuelOut, σ')

/-- `Must` from mask.go: as `Mask`, but panics on any error. -/
def Must (env : HookEnv) (fuel : Nat) (H : List Val) (x : Val) : MRes × St :=
  match Mask env fuel H x with
  | (.ret v none, σ) => (.ret v none, σ)
  | (.ret _ (some _), σ) => (.panicked "Must: error", σ)
  | (.panicked m, σ) => (.panicked m, σ)
  | (.fuelOut, σ) => (.fuelOut, σ)

/-! ## Specification-side definitions -/

/-- Extract the copy address an original address was mapped to by the
registry. -/
def lookupAddr (r : List (Nat × Val)) (a : Nat) : Option Nat :=
  match r.lookup a with
  | some (.ptr _ (some b)) => some b
  | _ => none

mutual

/-- The structural mirror of a value under an address renaming `g`: what a
hook-free run of the engine produces for it.  It reproduces the engine's
normalizations: pointer addresses are renamed, nil slices become present
empty slices, non-exported struct fields are replaced by their zero
values, and map entries are re-inserted left to right with copied keys
(an entry whose copied value is the nil interface is deleted). -/
def mirror (g : Nat → Option Nat) : Val → Val
  | .atom ty d => .atom ty d
  | .arr ty ety es => .arr ty ety (mirrorL g es)
  | .slice ty none => .slice ty (some [])
  | .slice ty (some l) => .slice ty (some (mirrorL g l))
  | .mp ty es => .mp ty (mirrorM g es [])
  | .ptr ety none => .ptr ety none
  | .ptr ety (some a) => .ptr ety (some ((g a).getD a))
  | .strct ty fs => .strct ty (mirrorF g fs)
  | .func => .func
  | .chan => .chan
  | .unsafeptr => .unsafeptr
  | .invalid => .invalid

def mirrorL (g : Nat → Option Nat) : List Val → List Val
  | [] => []
  | v :: l => mirror g v :: mirrorL g l

def mirrorM (g : Nat → Option Nat) :
    List (Val × Val) → List (Val × Val) → List (Val × Val)
  | [], dc => dc
  | (k, v) :: rest, dc =>
    match mirror g v with
    | .invalid => mirrorM g rest (mapDel dc (mirror g k))
    | item => mirrorM g rest (mapSet dc (mirror g k) item)

def mirrorF (g : Nat → Option Nat) :
    List (String × Bool × Val × Val) → List (String × Bool × Val × Val)
  | [] => []
  | (n, ex, v, z) :: l => (n, ex, if ex then mirror g v else z, z) :: mirrorF g l

end

mutual

/-- All pointer occurrences the engine traverses in a value, as
(pointee type name, address) pairs: array/slice elements, both components
of map entries, exported struct fields, and the value itself when it is a
non-nil pointer.  Non-exported fields are skipped, as in `_struct`. -/
def ptrOccs : Val → List (String × Nat)
  | .atom _ _ => []
  | .arr _ _ es => ptrOccsL es
  | .slice _ none => []
  | .slice _ (some l) => ptrOccsL l
  | .mp _ es => ptrOccsM es
  | .ptr _ none => []
  | .ptr ety (some a) => [(ety, a)]
  | .strct _ fs => ptrOccsF fs
  | .func => []
  | .chan => []
  | .unsafeptr => []
  | .invalid => []

def ptrOccsL : List Val → List (String × Nat)
  | [] => []
  | v :: l => ptrOccs v ++ ptrOccsL l

def ptrOccsM : List (Val × Val) → List (String × Nat)
  | [] => []
  | (k, v) :: l => ptrOccs v ++ ptrOccs k ++ ptrOccsM l

def ptrOccsF : List (String × Bool × Val × Val) → List (String × Nat)
  | [] => []
  | (_, ex, v, _) :: l => (if ex then ptrOccs v else []) ++ ptrOccsF l

end

/-- Addresses of the traversed pointer occurrences. -/
def addrsOf (v : Val) : List Nat := (ptrOccs v).map (·.2)

mutual

/-- No defined (named) array type occurs in the traversed part of the
value (`reflect.ArrayOf` erases such names, see `_array`). -/
def namedArrFree : Val → Bool
  | .atom _ _ => true
  | .arr ty _ es => ty == "" && namedArrFreeL es
  | .slice _ none => true
  | .slice _ (some l) => namedArrFreeL l
  | .mp _ es => namedArrFreeM es
  | .ptr _ _ => true
  | .strct _ fs => namedArrFreeF fs
  | .func => true
  | .chan => true
  | .unsafeptr => true
  | .invalid => true

def namedArrFreeL : List Val → Bool
  | [] => true
  | v :: l => namedArrFree v && namedArrFreeL l

def namedArrFreeM : List (Val × Val) → Bool
  | [] => true
  | (k, v) :: l => namedArrFree v && namedArrFree k && namedArrFreeM l

def namedArrFreeF : List (String × Bool × Val × Val) → Bool
  | [] => true
  | (_, ex, v, _) :: l => (!ex || namedArrFree v) && namedArrFreeF l

end

/-- The pointer occurrences of a value are consistent with the typing `E`
of heap addresses and point into the first `n` heap cells. -/
def occsOk (E : Nat → String) (n : Nat) (v : Val) : Prop :=
  ∀ p ∈ ptrOccs v, p.1 = E p.2 ∧ p.2 < n

/-- Well-formed input configuration for a hook-free run: every traversed
pointer in the heap and the start value points into the original heap with
a consistent pointee type, and no defined array type is traversed. -/
def inputWf (E : Nat → String) (H : List Val) (x : Val) : Prop :=
  (∀ c ∈ H, occsOk E H.length c ∧ namedArrFree c = true) ∧
  occsOk E H.length x ∧ namedArrFree x = true

/-- Every registry entry maps an original address to a pointer into the
copy region of the heap (`n` = size of the original heap). -/
def regHigh (n : Nat) (σ : St) : Prop :=
  ∀ e ∈ σ.reg, ∃ ety b, e.2 = Val.ptr ety (some b) ∧ n ≤ b ∧ b < σ.heap.length

/-- Frame relation for the non-mutation theorem: the first `n` heap cells
are untouched, the heap only grows, and all registry targets stay in the
copy region. -/
def frames (n : Nat) (σ σ' : St) : Prop :=
  σ'.heap.take n = σ.heap.take n ∧ σ.heap.length ≤ σ'.heap.length ∧ regHigh n σ'

/-- The copy relation of the record handler, written from the spec's
words: every externally visible (exported) field is recursively copied
through the engine and set on the new record; a non-exported field is left
at its type's zero value. -/
inductive CopiesFields (go : Val → St → Res × St) :
    List (String × Bool × Val × Val) → St →
    List (String × Bool × Val × Val) → St → Prop where
  | nil (σ : St) : CopiesFields go [] σ [] σ
  | consExported {n v z item rest σ σ₁ fs' σ₂} :
      go v σ = (.ok item, σ₁) → item ≠ .invalid →
      CopiesFields go rest σ₁ fs' σ₂ →
      CopiesFields go ((n, true, v, z) :: rest) σ ((n, true, item, z) :: fs') σ₂
  | consUnexported {n v z rest σ fs' σ₁} :
      CopiesFields go rest σ fs' σ₁ →
      CopiesFields go ((n, false, v, z) :: rest) σ ((n, false, z, z) :: fs') σ₁

/-- Copy-region address stored in a registry entry (0 for a malformed
entry; well-formedness rules those out). -/
def targD (e : Nat × Val) : Nat :=
  match e.2 with
  | .ptr _ (some b) => b
  | _ => 0

/-- Every traversed pointer address of `v` has been registered. -/
def covered (r : List (Nat × Val)) (v : Val) : Prop :=
  ∀ a ∈ addrsOf v, (lookupAddr r a).isSome

/-- The registry `r'` extends `r`: every lookup that succeeded still
returns the same copy pointer. -/
def regExt (r r' : List (Nat × Val)) : Prop :=
  ∀ a w, r.lookup a = some w → r'.lookup a = some w

/-- Invariant of a hook-free run over original heap `H` with pointee
typing `E` and pending set `P` (addresses registered by still-running
`_pointer` frames): the original heap prefix is intact, registry keys and
copy addresses are pairwise distinct, every pending address is
registered, and every registry entry maps an original address to a fresh
cell that is still blank while pending and holds the mirror of its
original cell once completed. -/
def regWfE (E : Nat → String) (H : List Val) (P : List Nat) (σ : St) : Prop :=
  σ.heap.take H.length = H ∧
  σ.reg.Pairwise (fun e e' => e.1 ≠ e'.1) ∧
  σ.reg.Pairwise (fun e e' => targD e ≠ targD e') ∧
  (∀ p ∈ P, (σ.reg.lookup p).isSome) ∧
  ∀ e ∈ σ.reg, ∃ b, e.2 = Val.ptr (E e.1) (some b) ∧ e.1 < H.length ∧ H.length ≤ b ∧
    b < σ.heap.length ∧
    (e.1 ∈ P → σ.heap.getD b .invalid = .invalid) ∧
    (e.1 ∉ P → σ.heap.getD b .invalid = mirror (lookupAddr σ.reg) (H.getD e.1 .invalid) ∧
               covered σ.reg (H.getD e.1 .invalid))

/-- Postcondition of a hook-free engine step on `v` from state `σ`: when
it succeeds, the invariant is maintained, the registry only grew, the heap
only grew, the produced copy is the mirror of `v` under the final
registry, and all of `v`'s traversed pointers are registered.  Failing
outcomes are unconstrained here (other theorems cover them). -/
def engPost (E : Nat → String) (H : List Val) (P : List Nat) (σ : St) (v : Val) :
    Res × St → Prop
  | (.ok v', σ') =>
      regWfE E H P σ' ∧ regExt σ.reg σ'.reg ∧ σ.heap.length ≤ σ'.heap.length ∧
      v' = mirror (lookupAddr σ'.reg) v ∧ covered σ'.reg v
  | _ => True

/-- Postcondition of a successful hook-free engine step from state `σ` on
`v` producing `v'` in state `σ'`: the invariant is maintained, registry and
heap only grow, the produced copy is the mirror of `v` under the final
registry, and all of `v`'s traversed pointers are registered. -/
abbrev okPost (E : Nat → String) (H : List Val) (P : List Nat)
    (σ : St) (v v' : Val) (σ' : St) : Prop :=
  regWfE E H P σ' ∧ regExt σ.reg σ'.reg ∧ σ.heap.length ≤ σ'.heap.length ∧
  v' = mirror (lookupAddr σ'.reg) v ∧ covered σ'.reg v

/-! ## Concrete fixtures used by counterexamples and witnesses -/

/-- Scenario A heap: a `Foo` record whose `Foo` field points back to its
own cell and whose `Bar` field is 4. -/
def fooHeap : List Val :=
  [.strct "Foo" [("Foo", true, .ptr "Foo" (some 0), .ptr "Foo" none),
                 ("Bar", true, .atom "int" "4", .atom "int" "0")]]

/-- The state produced by the hook-free Scenario A run (`Mask` of the
self-referential `Foo` pointer): the original cell followed by its copy,
with original address 0 renamed to the fresh copy cell 1 — the copy's
`Foo` field points back to the copy itself. -/
def fooFinal : St :=
  ⟨[.strct "Foo" [("Foo", true, .ptr "Foo" (some 0), .ptr "Foo" none),
                  ("Bar", true, .atom "int" "4", .atom "int" "0")],
    .strct "Foo" [("Foo", true, .ptr "Foo" (some 1), .ptr "Foo" none),
                  ("Bar", true, .atom "int" "4", .atom "int" "0")]],
   [(0, .ptr "Foo" (some 1))], []⟩

/-- An environment where only `*B` implements the mutating hook (with an
identity effect, so only the invocation trace is observable). -/
def envB : HookEnv where
  ptrMasker := fun n => n == "B"
  mutate := fun _ v => v
  valMethod := fun _ => none

/-- A heap holding one `B` record. -/
def heapB : List Val := [.strct "B" [("N", true, .atom "string" "x", .atom "string" "")]]

/-- A record with two fields that reference the same `B` cell. -/
def sharedX : Val :=
  .strct "S" [("F1", true, .ptr "B" (some 0), .ptr "B" none),
              ("F2", true, .ptr "B" (some 0), .ptr "B" none)]

/-- A cyclic heap: cell 0 is an `A` record whose `P` field points back to
cell 0 and whose `Q` field points to the `B` record in cell 1. -/
def cycHeap : List Val :=
  [.strct "A" [("P", true, .ptr "A" (some 0), .ptr "A" none),
               ("Q", true, .ptr "B" (some 1), .ptr "B" none)],
   .strct "B" [("N", true, .atom "string" "x", .atom "string" "")]]

/-- An environment where `*A` and `*B` implement the mutating hook. -/
def envAB : HookEnv where
  ptrMasker := fun n => n == "A" || n == "B"
  mutate := fun _ v => v
  valMethod := fun _ => none

/-- An environment where the defined atom type `T` declares a `MaskXXX`
whose signature returns two values: a hook-contract violation. -/
def envBad : HookEnv where
  ptrMasker := fun _ => false
  mutate := fun _ v => v
  valMethod := fun n => if n == "T" then some ⟨2, "T", fun v => v⟩ else none

/-- An environment where the defined atom type `T` declares a well-formed
transforming hook that always returns the sentinel `MASKED`. -/
def envT : HookEnv where
  ptrMasker := fun _ => false
  mutate := fun _ v => v
  valMethod := fun n => if n == "T" then some ⟨1, "T", fun _ => .atom "T" "MASKED"⟩ else none

/-- A record whose first field copies successfully and whose second field
has the hook-contract-violating type `T` (under `envBad`). -/
def badStruct : Val :=
  .strct "S" [("A", true, .atom "string" "ok", .atom "string" ""),
              ("B", true, .atom "T" "secret", .atom "T" "")]

/-- A record whose only field is non-exported and holds a function value. -/
def hiddenFunc : Val := .strct "S" [("f", false, .func, .func)]

/-! ## Theorems -/

/-- C3, counterexample: the claim says a nil source slice maps to a nil
copy, but `_slice` calls `reflect.MakeSlice` unconditionally, so `Mask` of
a nil slice returns a present zero-length slice, which is distinct from
the nil slice. -/
theorem c3_nil_slice_counterexample :
    Mask noHooks 1 [] (.slice "" none) = (.ret (.slice "" (some [])) none, ⟨[], [], []⟩) ∧
    Val.slice "" (some []) ≠ Val.slice "" none := by
  refine ⟨rfl, fun h => ?_⟩
  injection h with h1 h2
  exact Option.noConfusion h2

/-- C3, amended: both a nil source slice and a present zero-length source
slice yield a present zero-length copy — the nil/present distinction is
not preserved by `Mask`. -/
theorem c3_amended_nil_becomes_empty (env : HookEnv) (fuel : Nat) (H : List Val)
    (ty : String) (hm : env.valMethod ty = none) (hf : 0 < fuel) :
    Mask env fuel H (.slice ty none) = (.ret (.slice ty (some [])) none, ⟨H, [], []⟩) ∧
    Mask env fuel H (.slice ty (some [])) = (.ret (.slice ty (some [])) none, ⟨H, [], []⟩) := by
  cases fuel with
  | zero => omega
  | succ f =>
    constructor <;>
      simp [Mask, _anything, copiers, andMask, _slice, _sliceItems, _mask, maskValue, tyName,
        tyOf, hm]

/-- Witness for `c3_amended_nil_becomes_empty` at a concrete slice type. -/
theorem c3_amended_nil_becomes_empty_witness :
    (noHooks.valMethod "sl" = none ∧ 0 < 1) ∧
    Mask noHooks 1 [] (.slice "sl" none) = (.ret (.slice "sl" (some [])) none, ⟨[], [], []⟩) :=
  ⟨⟨rfl, by decide⟩, (c3_amended_nil_becomes_empty noHooks 1 [] "sl" rfl (by decide)).1⟩

/-- C9, counterexample: a map entry whose value is the nil interface does
not panic — `SetMapIndex` with an invalid elem deletes the key, so `Mask`
returns successfully with the entry silently dropped. -/
theorem c9_map_nil_value_counterexample :
    Mask noHooks 2 [] (.mp "" [(.atom "string" "a", .invalid)]) =
      (.ret (.mp "" []) none, ⟨[], [], []⟩) := rfl

/-- C9, amended: a nil-interface value in an exported struct field or an
array element panics (unguarded `Set`), and a nil-interface map key panics
in `SetMapIndex`; but a nil-interface map value does not panic — the entry
is silently omitted from the copy. -/
theorem c9_amended_invalid_value_panics :
    Mask noHooks 2 [] (.strct "S" [("A", true, .invalid, .invalid)]) =
      (.panicked "reflect: Set using zero Value argument", ⟨[], [], []⟩) ∧
    Mask noHooks 2 [] (.arr "" "any" [.invalid]) =
      (.panicked "reflect: Set using zero Value argument", ⟨[], [], []⟩) ∧
    Mask noHooks 2 [] (.mp "" [(.invalid, .atom "string" "a")]) =
      (.panicked "reflect: SetMapIndex using zero Value key", ⟨[], [], []⟩) ∧
    Mask noHooks 2 [] (.mp "" [(.atom "string" "a", .invalid)]) =
      (.ret (.mp "" []) none, ⟨[], [], []⟩) :=
  ⟨rfl, rfl, rfl, rfl⟩

/-! Unfolding equations for the engine, used throughout the proofs. -/

theorem anything_zero (env : HookEnv) (x : Val) (σ : St) :
    _anything env 0 x σ = (.fuelOut, σ) := rfl

theorem anything_invalid (env : HookEnv) (f : Nat) (σ : St) :
    _anything env (f + 1) .invalid σ = (.ok .invalid, σ) := rfl

theorem anything_atom (env : HookEnv) (f : Nat) (ty d : String) (σ : St) :
    _anything env (f + 1) (.atom ty d) σ = andMask env (_primitive (.atom ty d) σ) := rfl

theorem anything_arr (env : HookEnv) (f : Nat) (ty ety : String) (es : List Val) (σ : St) :
    _anything env (f + 1) (.arr ty ety es) σ =
      andMask env (_array (fun v σ' => _anything env f v σ') (.arr ty ety es) σ) := rfl

theorem anything_slice (env : HookEnv) (f : Nat) (ty : String) (o : Option (List Val)) (σ : St) :
    _anything env (f + 1) (.slice ty o) σ =
      andMask env (_slice (fun v σ' => _anything env f v σ') (.slice ty o) σ) := rfl

theorem anything_mp (env : HookEnv) (f : Nat) (ty : String) (es : List (Val × Val)) (σ : St) :
    _anything env (f + 1) (.mp ty es) σ =
      andMask env (_map (fun v σ' => _anything env f v σ') (.mp ty es) σ) := rfl

theorem anything_ptr (env : HookEnv) (f : Nat) (ety : String) (a? : Option Nat) (σ : St) :
    _anything env (f + 1) (.ptr ety a?) σ =
      andMask env (_pointer (fun v σ' => _anything env f v σ') (.ptr ety a?) σ) := rfl

theorem anything_strct (env : HookEnv) (f : Nat) (ty : String)
    (fs : List (String × Bool × Val × Val)) (σ : St) :
    _anything env (f + 1) (.strct ty fs) σ =
      andMask env (_struct (fun v σ' => _anything env f v σ') (.strct ty fs) σ) := rfl

theorem anything_func (env : HookEnv) (f : Nat) (σ : St) :
    _anything env (f + 1) .func σ = (.err (.unsupported .func), σ) := rfl

theorem anything_chan (env : HookEnv) (f : Nat) (σ : St) :
    _anything env (f + 1) .chan σ = (.err (.unsupported .chan), σ) := rfl

theorem anything_unsafeptr (env : HookEnv) (f : Nat) (σ : St) :
    _anything env (f + 1) .unsafeptr σ = (.err (.unsupported .unsafeptr), σ) := rfl

/-- A successful engine run on an array value always produces an array
whose type name is empty: `_array` allocates via `reflect.ArrayOf`, which
yields the unnamed array type, and the hook invoker leaves unnamed types
untouched. -/
theorem anything_arr_ok (env : HookEnv) (f : Nat) (ty ety : String) (es : List Val)
    (σ : St) (out : Val) (σ' : St)
    (h : _anything env f (.arr ty ety es) σ = (.ok out, σ')) :
    ∃ items, out = .arr "" ety items := by
  cases f with
  | zero => simp [anything_zero] at h
  | succ f =>
    rw [anything_arr] at h
    rcases h1 : _arrayItems (fun v σ' => _anything env f v σ') es 0 σ with ⟨r, σ1⟩
    cases r with
    | ok items =>
      rw [_array, h1] at h
      simp only [andMask, _mask, tyName] at h
      cases h
      exact ⟨items, rfl⟩
    | err e => rw [_array, h1] at h; simp [andMask] at h
    | panicked m => rw [_array, h1] at h; simp [andMask] at h
    | fuelOut => rw [_array, h1] at h; simp [andMask] at h

/-- C10: for a value of a defined (named) array type, `Mask` never returns
a copy with a nil error — whenever the engine produces the copy, the final
`out.(T)` assertion panics, because `_array` produced the unnamed array
type. -/
theorem c10_named_array_asserts (env : HookEnv) (fuel : Nat) (H : List Val)
    (ty ety : String) (es : List Val) (hty : ty ≠ "") :
    (∀ out σ', _anything env fuel (.arr ty ety es) ⟨H, [], []⟩ = (.ok out, σ') →
      Mask env fuel H (.arr ty ety es) = (.panicked "interface conversion", σ')) ∧
    (∀ y σ', Mask env fuel H (.arr ty ety es) ≠ (.ret y none, σ')) := by
  constructor
  · intro out σ' h
    obtain ⟨items, rfl⟩ := anything_arr_ok env fuel ty ety es _ out σ' h
    rw [Mask, h]
    have : tyOf (Val.arr "" ety items) ≠ tyOf (Val.arr ty ety es) := by
      simp [tyOf]
      intro h'
      exact fun _ => hty h'.symm
    simp [this]
  · intro y σ' hmask
    rcases h : _anything env fuel (.arr ty ety es) ⟨H, [], []⟩ with ⟨r, σ1⟩
    cases r with
    | ok out =>
      obtain ⟨items, rfl⟩ := anything_arr_ok env fuel ty ety es _ out σ1 h
      rw [Mask, h] at hmask
      have : tyOf (Val.arr "" ety items) ≠ tyOf (Val.arr ty ety es) := by
        simp [tyOf]
        intro h'
        exact fun _ => hty h'.symm
      simp [this] at hmask
    | err e => rw [Mask, h] at hmask; cases hmask
    | panicked m => rw [Mask, h] at hmask; cases hmask
    | fuelOut => rw [Mask, h] at hmask; cases hmask

/-- Witness for `c10_named_array_asserts`: `Mask` of a value of the named
array type `A` panics with the failed interface conversion. -/
theorem c10_named_array_asserts_witness :
    ("A" : String) ≠ "" ∧
    Mask noHooks 1 [] (.arr "A" "int" []) = (.panicked "interface conversion", ⟨[], [], []⟩) :=
  ⟨by decide,
   (c10_named_array_asserts noHooks 1 [] "A" "int" [] (by decide)).1 (.arr "" "int" [])
     ⟨[], [], []⟩ rfl⟩

/-- C2, counterexample: in `heapB`/`sharedX` there is exactly one non-nil
`B` instance, reached through two shared references; its mutating hook is
invoked twice (once when the pointer is first copied, once more when the
registry hit for the second reference passes the same copy pointer through
`_mask` again), refuting "exactly once per instance". -/
theorem c2_shared_ref_double_invocation_counterexample :
    (Mask envB 10 heapB sharedX).2.tr = [.mutEv "B" 1, .mutEv "B" 1] ∧
    ((Mask envB 10 heapB sharedX).2.tr.count (.mutEv "B" 1) = 2) ∧ (2 : Nat) ≠ 1 := by
  refine ⟨rfl, rfl, by decide⟩

/-- Unfolded form of the hook invoker on a record copy. -/
theorem mask_strct_eq (env : HookEnv) (ty : String)
    (fs : List (String × Bool × Val × Val)) (σ : St) :
    _mask env (.strct ty fs) σ =
      match (if ty = "" then none else env.valMethod ty) with
      | none => (.ok (.strct ty fs), σ)
      | some sig =>
        if sig.numOut ≠ 1 then (.err (.hookOut sig.numOut), σ)
        else if sig.outName ≠ ty then (.err (.hookTy ty sig.outName), σ)
        else (.ok (sig.fn (.strct ty fs)), { σ with tr := σ.tr ++ [.transEv ty] }) := rfl

/-- Unfolded form of the hook invoker on an atom copy. -/
theorem mask_atom_eq (env : HookEnv) (ty d : String) (σ : St) :
    _mask env (.atom ty d) σ =
      match (if ty = "" then none else env.valMethod ty) with
      | none => (.ok (.atom ty d), σ)
      | some sig =>
        if sig.numOut ≠ 1 then (.err (.hookOut sig.numOut), σ)
        else if sig.outName ≠ ty then (.err (.hookTy ty sig.outName), σ)
        else (.ok (sig.fn (.atom ty d)), { σ with tr := σ.tr ++ [.transEv ty] }) := rfl

/-- The hook invoker on a record copy, when no value hook is found. -/
theorem mask_strct_none (env : HookEnv) (ty : String)
    (fs : List (String × Bool × Val × Val)) (σ : St)
    (h : (if ty = "" then none else env.valMethod ty) = none) :
    _mask env (.strct ty fs) σ = (.ok (.strct ty fs), σ) := by
  rw [mask_strct_eq, h]

/-- The hook invoker on a record copy, when a value hook is found. -/
theorem mask_strct_some (env : HookEnv) (ty : String)
    (fs : List (String × Bool × Val × Val)) (σ : St) (sig : MethodSig)
    (h : (if ty = "" then none else env.valMethod ty) = some sig) :
    _mask env (.strct ty fs) σ =
      if sig.numOut ≠ 1 then (.err (.hookOut sig.numOut), σ)
      else if sig.outName ≠ ty then (.err (.hookTy ty sig.outName), σ)
      else (.ok (sig.fn (.strct ty fs)), { σ with tr := σ.tr ++ [.transEv ty] }) := by
  rw [mask_strct_eq, h]

/-- C2, amended: the mutating hook is invoked once per non-nil pointer
occurrence processed by the engine (so a shared instance's hook runs once
per reference that reaches it, twice in the `sharedX` scenario); it is
never invoked for a nil reference (no state change, no trace event), and
the hook invoker never emits a mutating-hook event for a value reached by
value (a struct copy gets at most a transforming-hook event). -/
theorem c2_amended_once_per_occurrence :
    ((Mask envB 10 heapB sharedX).2.tr.count (.mutEv "B" 1) = 2) ∧
    (∀ (env : HookEnv) (ety : String) (σ : St),
      _mask env (.ptr ety none) σ = (.ok (.ptr ety none), σ)) ∧
    (∀ (env : HookEnv) (ty : String) (fs : List (String × Bool × Val × Val)) (σ : St),
      ((_mask env (.strct ty fs) σ).2).tr = σ.tr ∨
      ∃ n, ((_mask env (.strct ty fs) σ).2).tr = σ.tr ++ [.transEv n]) := by
  refine ⟨rfl, fun env ety σ => rfl, fun env ty fs σ => ?_⟩
  rcases hv : (if ty = "" then none else env.valMethod ty) with _ | sig
  · rw [mask_strct_none env ty fs σ hv]
    exact Or.inl rfl
  · rw [mask_strct_some env ty fs σ sig hv]
    by_cases h1 : sig.numOut ≠ 1
    · rw [if_pos h1]
      exact Or.inl rfl
    · rw [if_neg h1]
      by_cases h2 : sig.outName ≠ ty
      · rw [if_pos h2]
        exact Or.inl rfl
      · rw [if_neg h2]
        exact Or.inr ⟨ty, rfl⟩

/-- C5, counterexample: a graph that contains a function value — in a
non-exported struct field — for which `Mask` succeeds with a nil error
instead of returning the zero value with a non-nil error: the record
handler never traverses non-exported fields. -/
theorem c5_hidden_func_counterexample :
    Mask noHooks 2 [] hiddenFunc = (.ret hiddenFunc none, ⟨[], [], []⟩) := rfl

/-- C5, amended: whenever the engine fails with an error at any depth,
`Mask` returns the zero value of the input's type together with that
non-nil error (no partial copy), and `Must` panics; a function, channel or
unsafe-pointer value produces such an error whenever the traversal reaches
it (it can fail to be reached, e.g. in a non-exported field, and a C9
panic can preempt the error). -/
theorem c5_amended_error_propagation :
    (∀ (env : HookEnv) (fuel : Nat) (H : List Val) (x : Val) (e : Err) (σ' : St),
      _anything env fuel x ⟨H, [], []⟩ = (.err e, σ') →
      Mask env fuel H x = (.ret (zeroVal x) (some e), σ') ∧
      Must env fuel H x = (.panicked "Must: error", σ')) ∧
    (∀ (env : HookEnv) (f : Nat) (σ : St),
      _anything env (f + 1) .func σ = (.err (.unsupported .func), σ) ∧
      _anything env (f + 1) .chan σ = (.err (.unsupported .chan), σ) ∧
      _anything env (f + 1) .unsafeptr σ = (.err (.unsupported .unsafeptr), σ)) ∧
    (∀ (env : HookEnv) (f : Nat) (H : List Val),
      Mask env (f + 1) H .func =
        (.ret (zeroVal .func) (some (.unsupported .func)), ⟨H, [], []⟩) ∧
      Must env (f + 1) H .func = (.panicked "Must: error", ⟨H, [], []⟩)) := by
  have hmask : ∀ (env : HookEnv) (fuel : Nat) (H : List Val) (x : Val) (e : Err) (σ' : St),
      _anything env fuel x ⟨H, [], []⟩ = (.err e, σ') →
      Mask env fuel H x = (.ret (zeroVal x) (some e), σ') ∧
      Must env fuel H x = (.panicked "Must: error", σ') := by
    intro env fuel H x e σ' h
    have h1 : Mask env fuel H x = (.ret (zeroVal x) (some e), σ') := by rw [Mask, h]
    exact ⟨h1, by rw [Must, h1]⟩
  refine ⟨hmask, fun env f σ => ⟨rfl, rfl, rfl⟩, fun env f H => ?_⟩
  exact hmask env (f + 1) H .func (.unsupported .func) ⟨H, [], []⟩ rfl

/-- Witness for `c5_amended_error_propagation`: a concrete erroring run
(top-level function value) through the first conjunct. -/
theorem c5_amended_error_propagation_witness :
    _anything noHooks 1 .func ⟨[], [], []⟩ = (.err (.unsupported .func), ⟨[], [], []⟩) ∧
    Mask noHooks 1 [] .func =
      (.ret (zeroVal .func) (some (.unsupported .func)), ⟨[], [], []⟩) :=
  ⟨rfl, (c5_amended_error_propagation.1 noHooks 1 [] .func (.unsupported .func)
    ⟨[], [], []⟩ rfl).1⟩

/-- On a non-pointer copy, the hook invoker is exactly its value half. -/
theorem mask_eq_maskValue (env : HookEnv) (x : Val) (σ : St)
    (hx : ∀ ety a?, x ≠ .ptr ety a?) : _mask env x σ = maskValue env x σ := by
  cases x
  case ptr ety a? => exact absurd rfl (hx ety a?)
  all_goals rfl

/-- The value hook branch when the method lookup finds a signature. -/
theorem maskValue_some (env : HookEnv) (x : Val) (σ : St) (sig : MethodSig)
    (h : (if tyName x = "" then none else env.valMethod (tyName x)) = some sig) :
    maskValue env x σ =
      if sig.numOut ≠ 1 then (.err (.hookOut sig.numOut), σ)
      else if sig.outName ≠ tyName x then (.err (.hookTy (tyName x) sig.outName), σ)
      else (.ok (sig.fn x), { σ with tr := σ.tr ++ [.transEv (tyName x)] }) := by
  rw [show maskValue env x σ =
    (match (if tyName x = "" then none else env.valMethod (tyName x)) with
     | none => (.ok x, σ)
     | some sig =>
       if sig.numOut ≠ 1 then (.err (.hookOut sig.numOut), σ)
       else if sig.outName ≠ tyName x then (.err (.hookTy (tyName x) sig.outName), σ)
       else (.ok (sig.fn x), { σ with tr := σ.tr ++ [.transEv (tyName x)] })) from rfl, h]

/-- C8: for a non-reference-shaped copy whose type declares a `MaskXXX`, a
signature that does not return exactly one value of the receiver's own
type makes the hook invoker fail with the hook-contract error, and this
aborts the whole `Mask` call even though a sibling subtree was already
copied; a well-formed hook's result wholly replaces the copy. -/
theorem c8_hook_contract (env : HookEnv) (x : Val) (σ : St) (sig : MethodSig)
    (hx : ∀ ety a?, x ≠ .ptr ety a?) (hn : tyName x ≠ "")
    (hv : env.valMethod (tyName x) = some sig) :
    (sig.numOut ≠ 1 → _mask env x σ = (.err (.hookOut sig.numOut), σ)) ∧
    (sig.numOut = 1 → sig.outName ≠ tyName x →
      _mask env x σ = (.err (.hookTy (tyName x) sig.outName), σ)) ∧
    (sig.numOut = 1 → sig.outName = tyName x →
      _mask env x σ = (.ok (sig.fn x), { σ with tr := σ.tr ++ [.transEv (tyName x)] })) ∧
    Mask envBad 2 [] badStruct =
      (.ret (zeroVal badStruct) (some (.structField "B" (.hookOut 2))), ⟨[], [], []⟩) := by
  have base : _mask env x σ =
      if sig.numOut ≠ 1 then (.err (.hookOut sig.numOut), σ)
      else if sig.outName ≠ tyName x then (.err (.hookTy (tyName x) sig.outName), σ)
      else (.ok (sig.fn x), { σ with tr := σ.tr ++ [.transEv (tyName x)] }) := by
    rw [mask_eq_maskValue env x σ hx]
    exact maskValue_some env x σ sig (by rw [if_neg hn, hv])
  refine ⟨fun h1 => ?_, fun h1 h2 => ?_, fun h1 h2 => ?_, rfl⟩
  · rw [base, if_pos h1]
  · rw [base, if_neg (by simp [h1]), if_pos h2]
  · rw [base, if_neg (by simp [h1]), if_neg (by simp [h2])]

/-- Witness for `c8_hook_contract`: the type `T` under `envBad` declares a
two-result `MaskXXX`, and the hook invoker fails with the contract
error. -/
theorem c8_hook_contract_witness :
    (∀ ety a?, Val.atom "T" "secret" ≠ .ptr ety a?) ∧
    tyName (.atom "T" "secret") ≠ "" ∧
    envBad.valMethod (tyName (.atom "T" "secret")) = some ⟨2, "T", fun v => v⟩ ∧
    _mask envBad (.atom "T" "secret") ⟨[], [], []⟩ = (.err (.hookOut 2), ⟨[], [], []⟩) := by
  refine ⟨fun ety a? h => Val.noConfusion h, by decide, rfl, ?_⟩
  exact (c8_hook_contract envBad (.atom "T" "secret") ⟨[], [], []⟩ ⟨2, "T", fun v => v⟩
    (fun ety a? h => Val.noConfusion h) (by decide) rfl).1 (by decide)

/-- C6, counterexample: in `cycHeap`, the copy of the `A` instance (cell
2) contains, through its `Q` field, the copy of the `B` instance (cell 3).
Strict post-order requires every invocation of A's hook to come after B's
hook has been applied; but the registry hit on the cycle `P` field invokes
A's mutating hook (trace index 0) before B's hook (index 1). -/
theorem c6_cycle_preorder_counterexample :
    (Mask envAB 10 cycHeap (.ptr "A" (some 0))).2.tr =
      [.mutEv "A" 2, .mutEv "B" 3, .mutEv "A" 2] ∧
    ((Mask envAB 10 cycHeap (.ptr "A" (some 0))).2.tr.take 2 =
      [.mutEv "A" 2, .mutEv "B" 3]) := ⟨rfl, rfl⟩

/-- The value hook branch when the method lookup finds nothing. -/
theorem maskValue_none (env : HookEnv) (x : Val) (σ : St)
    (h : (if tyName x = "" then none else env.valMethod (tyName x)) = none) :
    maskValue env x σ = (.ok x, σ) := by
  rw [show maskValue env x σ =
    (match (if tyName x = "" then none else env.valMethod (tyName x)) with
     | none => (.ok x, σ)
     | some sig =>
       if sig.numOut ≠ 1 then (.err (.hookOut sig.numOut), σ)
       else if sig.outName ≠ tyName x then (.err (.hookTy (tyName x) sig.outName), σ)
       else (.ok (sig.fn x), { σ with tr := σ.tr ++ [.transEv (tyName x)] })) from rfl, h]

theorem tr_refl (σ : St) : ∃ Δ, σ.tr = σ.tr ++ Δ := ⟨[], by simp⟩

theorem tr_comp {σ σ₁ σ₂ : St} (h1 : ∃ Δ, σ₁.tr = σ.tr ++ Δ)
    (h2 : ∃ Δ, σ₂.tr = σ₁.tr ++ Δ) : ∃ Δ, σ₂.tr = σ.tr ++ Δ := by
  rcases h1 with ⟨a, ha⟩
  rcases h2 with ⟨b, hb⟩
  exact ⟨a ++ b, by rw [hb, ha, List.append_assoc]⟩

/-- The value hook branch only appends to the trace. -/
theorem tr_maskValue (env : HookEnv) (x : Val) (σ : St) :
    ∃ Δ, ((maskValue env x σ).2).tr = σ.tr ++ Δ := by
  rcases hv : (if tyName x = "" then none else env.valMethod (tyName x)) with _ | sig
  · rw [maskValue_none env x σ hv]
    exact tr_refl σ
  · rw [maskValue_some env x σ sig hv]
    by_cases h1 : sig.numOut ≠ 1
    · rw [if_pos h1]
      exact tr_refl σ
    · rw [if_neg h1]
      by_cases h2 : sig.outName ≠ tyName x
      · rw [if_pos h2]
        exact tr_refl σ
      · rw [if_neg h2]
        exact ⟨[.transEv (tyName x)], rfl⟩

/-- The hook invoker only appends to the trace. -/
theorem tr_mask (env : HookEnv) (x : Val) (σ : St) :
    ∃ Δ, ((_mask env x σ).2).tr = σ.tr ++ Δ := by
  cases x
  case ptr ety a? =>
    cases a? with
    | none => exact tr_refl σ
    | some a =>
      rw [_mask]
      by_cases hm : env.ptrMasker ety
      · rw [if_pos hm]
        exact ⟨[.mutEv ety a], rfl⟩
      · rw [if_neg hm]
        exact tr_refl σ
  all_goals rw [mask_eq_maskValue env _ σ (fun ety a? h => Val.noConfusion h)]
  all_goals exact tr_maskValue env _ σ

theorem tr_andMask (env : HookEnv) (r : Res × St) (σ : St)
    (h : ∃ Δ, (r.2).tr = σ.tr ++ Δ) : ∃ Δ, ((andMask env r).2).tr = σ.tr ++ Δ := by
  rcases r with ⟨r, σ₁⟩
  cases r with
  | ok out => exact tr_comp h (tr_mask env out σ₁)
  | err e => exact h
  | panicked m => exact h
  | fuelOut => exact h

theorem tr_sliceItems (go : Val → St → Res × St)
    (hgo : ∀ v σ, ∃ Δ, ((go v σ).2).tr = σ.tr ++ Δ) :
    ∀ (l : List Val) (i : Nat) (σ : St), ∃ Δ, ((_sliceItems go l i σ).2).tr = σ.tr ++ Δ := by
  intro l
  induction l with
  | nil => intro i σ; exact tr_refl σ
  | cons v rest ih =>
    intro i σ
    rcases h1 : go v σ with ⟨r, σ₁⟩
    have e1 : ∃ Δ, σ₁.tr = σ.tr ++ Δ := by have := hgo v σ; rwa [h1] at this
    simp only [_sliceItems, h1]
    cases r with
    | ok item =>
      rcases h2 : _sliceItems go rest (i + 1) σ₁ with ⟨r₂, σ₂⟩
      have e2 : ∃ Δ, σ₂.tr = σ₁.tr ++ Δ := by have := ih (i + 1) σ₁; rwa [h2] at this
      simp only [h2]
      cases r₂ <;> exact tr_comp e1 e2
    | err e => exact e1
    | panicked m => exact e1
    | fuelOut => exact e1

theorem tr_slice (go : Val → St → Res × St)
    (hgo : ∀ v σ, ∃ Δ, ((go v σ).2).tr = σ.tr ++ Δ) (x : Val) (σ : St) :
    ∃ Δ, ((_slice go x σ).2).tr = σ.tr ++ Δ := by
  cases x
  case slice ty o =>
    rw [_slice]
    rcases h1 : _sliceItems go (o.getD []) 0 σ with ⟨r, σ₁⟩
    have e1 : ∃ Δ, σ₁.tr = σ.tr ++ Δ := by
      have := tr_sliceItems go hgo (o.getD []) 0 σ; rwa [h1] at this
    cases r <;> exact e1
  all_goals exact tr_refl σ

theorem tr_mapItems (go : Val → St → Res × St)
    (hgo : ∀ v σ, ∃ Δ, ((go v σ).2).tr = σ.tr ++ Δ) :
    ∀ (l dc : List (Val × Val)) (σ : St), ∃ Δ, ((_mapItems go l dc σ).2).tr = σ.tr ++ Δ := by
  intro l
  induction l with
  | nil => intro dc σ; exact tr_refl σ
  | cons p rest ih =>
    rcases p with ⟨k0, v0⟩
    intro dc σ
    rcases h1 : go v0 σ with ⟨r, σ₁⟩
    have e1 : ∃ Δ, σ₁.tr = σ.tr ++ Δ := by have := hgo v0 σ; rwa [h1] at this
    simp only [_mapItems, h1]
    cases r with
    | ok item =>
      rcases h2 : go k0 σ₁ with ⟨r₂, σ₂⟩
      have e2 : ∃ Δ, σ₂.tr = σ₁.tr ++ Δ := by have := hgo k0 σ₁; rwa [h2] at this
      simp only [h2]
      have hrec : ∀ dc', ∃ Δ, ((_mapItems go rest dc' σ₂).2).tr = σ₂.tr ++ Δ :=
        fun dc' => ih dc' σ₂
      cases r₂ with
      | ok k =>
        cases k <;> cases item <;>
          first
            | exact tr_comp e1 e2
            | exact tr_comp e1 (tr_comp e2 (hrec _))
      | err e => exact tr_comp e1 e2
      | panicked m => exact tr_comp e1 e2
      | fuelOut => exact tr_comp e1 e2
    | err e => exact e1
    | panicked m => exact e1
    | fuelOut => exact e1

theorem tr_map (go : Val → St → Res × St)
    (hgo : ∀ v σ, ∃ Δ, ((go v σ).2).tr = σ.tr ++ Δ) (x : Val) (σ : St) :
    ∃ Δ, ((_map go x σ).2).tr = σ.tr ++ Δ := by
  cases x
  case mp ty es =>
    rw [_map]
    rcases h1 : _mapItems go es [] σ with ⟨r, σ₁⟩
    have e1 : ∃ Δ, σ₁.tr = σ.tr ++ Δ := by
      have := tr_mapItems go hgo es [] σ; rwa [h1] at this
    cases r <;> exact e1
  all_goals exact tr_refl σ

theorem tr_pointer (go : Val → St → Res × St)
    (hgo : ∀ v σ, ∃ Δ, ((go v σ).2).tr = σ.tr ++ Δ) (x : Val) (σ : St) :
    ∃ Δ, ((_pointer go x σ).2).tr = σ.tr ++ Δ := by
  cases x
  case ptr ety a? =>
    cases a? with
    | none => exact tr_refl σ
    | some a =>
      rcases hl : σ.reg.lookup a with _ | dc
      · rcases h1 : go (σ.heap.getD a .invalid)
            ⟨σ.heap ++ [.invalid], (a, Val.ptr ety (some σ.heap.length)) :: σ.reg, σ.tr⟩
          with ⟨r, σ₂⟩
        have e1 : ∃ Δ, σ₂.tr = σ.tr ++ Δ := by
          have := hgo (σ.heap.getD a .invalid)
            ⟨σ.heap ++ [.invalid], (a, Val.ptr ety (some σ.heap.length)) :: σ.reg, σ.tr⟩
          rwa [h1] at this
        simp only [_pointer, hl, h1]
        cases r with
        | ok item => cases item <;> exact e1
        | err e => exact e1
        | panicked m => exact e1
        | fuelOut => exact e1
      · simp only [_pointer, hl]
        exact tr_refl σ
  all_goals exact tr_refl σ

theorem tr_structFields (go : Val → St → Res × St)
    (hgo : ∀ v σ, ∃ Δ, ((go v σ).2).tr = σ.tr ++ Δ) :
    ∀ (l : List (String × Bool × Val × Val)) (σ : St),
      ∃ Δ, ((_structFields go l σ).2).tr = σ.tr ++ Δ := by
  intro l
  induction l with
  | nil => intro σ; exact tr_refl σ
  | cons fld rest ih =>
    rcases fld with ⟨n, ex, v, z⟩
    intro σ
    cases ex with
    | true =>
      rcases h1 : go v σ with ⟨r, σ₁⟩
      have e1 : ∃ Δ, σ₁.tr = σ.tr ++ Δ := by have := hgo v σ; rwa [h1] at this
      simp only [_structFields, h1, if_true]
      have hrec : ∃ Δ, ((_structFields go rest σ₁).2).tr = σ₁.tr ++ Δ := ih σ₁
      cases r with
      | ok item =>
        rcases h2 : _structFields go rest σ₁ with ⟨r₂, σ₂⟩
        have e2 : ∃ Δ, σ₂.tr = σ₁.tr ++ Δ := by rwa [h2] at hrec
        simp only [h2]
        cases item <;> first | exact e1 | (cases r₂ <;> exact tr_comp e1 e2)
      | err e => exact e1
      | panicked m => exact e1
      | fuelOut => exact e1
    | false =>
      rcases h2 : _structFields go rest σ with ⟨r₂, σ₂⟩
      have e2 : ∃ Δ, σ₂.tr = σ.tr ++ Δ := by have := ih σ; rwa [h2] at this
      simp only [_structFields, h2, if_false]
      cases r₂ <;> exact e2

theorem tr_struct (go : Val → St → Res × St)
    (hgo : ∀ v σ, ∃ Δ, ((go v σ).2).tr = σ.tr ++ Δ) (x : Val) (σ : St) :
    ∃ Δ, ((_struct go x σ).2).tr = σ.tr ++ Δ := by
  cases x
  case strct ty fs =>
    rw [_struct]
    rcases h1 : _structFields go fs σ with ⟨r, σ₁⟩
    have e1 : ∃ Δ, σ₁.tr = σ.tr ++ Δ := by
      have := tr_structFields go hgo fs σ; rwa [h1] at this
    cases r <;> exact e1
  all_goals exact tr_refl σ

theorem tr_arrayItems (go : Val → St → Res × St)
    (hgo : ∀ v σ, ∃ Δ, ((go v σ).2).tr = σ.tr ++ Δ) :
    ∀ (l : List Val) (i : Nat) (σ : St), ∃ Δ, ((_arrayItems go l i σ).2).tr = σ.tr ++ Δ := by
  intro l
  induction l with
  | nil => intro i σ; exact tr_refl σ
  | cons v rest ih =>
    intro i σ
    rcases h1 : go v σ with ⟨r, σ₁⟩
    have e1 : ∃ Δ, σ₁.tr = σ.tr ++ Δ := by have := hgo v σ; rwa [h1] at this
    simp only [_arrayItems, h1]
    cases r with
    | ok item =>
      rcases h2 : _arrayItems go rest (i + 1) σ₁ with ⟨r₂, σ₂⟩
      have e2 : ∃ Δ, σ₂.tr = σ₁.tr ++ Δ := by have := ih (i + 1) σ₁; rwa [h2] at this
      simp only [h2]
      cases item <;> first | exact e1 | (cases r₂ <;> exact tr_comp e1 e2)
    | err e => exact e1
    | panicked m => exact e1
    | fuelOut => exact e1

theorem tr_array (go : Val → St → Res × St)
    (hgo : ∀ v σ, ∃ Δ, ((go v σ).2).tr = σ.tr ++ Δ) (x : Val) (σ : St) :
    ∃ Δ, ((_array go x σ).2).tr = σ.tr ++ Δ := by
  cases x
  case arr ty ety es =>
    rw [_array]
    rcases h1 : _arrayItems go es 0 σ with ⟨r, σ₁⟩
    have e1 : ∃ Δ, σ₁.tr = σ.tr ++ Δ := by
      have := tr_arrayItems go hgo es 0 σ; rwa [h1] at this
    cases r <;> exact e1
  all_goals exact tr_refl σ

/-- The engine only appends to the hook-invocation trace. -/
theorem tr_anything (env : HookEnv) :
    ∀ (f : Nat) (x : Val) (σ : St), ∃ Δ, ((_anything env f x σ).2).tr = σ.tr ++ Δ := by
  intro f
  induction f with
  | zero => intro x σ; exact tr_refl σ
  | succ f ih =>
    intro x σ
    cases x
    case invalid => exact tr_refl σ
    case func => exact tr_refl σ
    case chan => exact tr_refl σ
    case unsafeptr => exact tr_refl σ
    case atom ty d =>
      rw [anything_atom]
      exact tr_andMask env _ σ (tr_refl σ)
    case arr ty ety es =>
      rw [anything_arr]
      exact tr_andMask env _ σ (tr_array _ ih _ σ)
    case slice ty o =>
      rw [anything_slice]
      exact tr_andMask env _ σ (tr_slice _ ih _ σ)
    case mp ty es =>
      rw [anything_mp]
      exact tr_andMask env _ σ (tr_map _ ih _ σ)
    case ptr ety a? =>
      rw [anything_ptr]
      exact tr_andMask env _ σ (tr_pointer _ ih _ σ)
    case strct ty fs =>
      rw [anything_strct]
      exact tr_andMask env _ σ (tr_struct _ ih _ σ)

/-- C6, amended: masking is post-order at the granularity of completion —
for every supported value, when its copier returns a copy, `_anything`
runs the value's own hook invocation strictly after the copier finished
(the whole trace produced while copying the contained values precedes the
events of the value's own `_mask`); the engine trace is append-only.  The
strict per-instance claim fails in cycles: a registry hit re-invokes a
mutating hook early (see the counterexample). -/
theorem c6_amended_postorder_at_completion :
    (∀ (env : HookEnv) (f : Nat) (x : Val) (σ : St),
      ∃ Δ, ((_anything env f x σ).2).tr = σ.tr ++ Δ) ∧
    (∀ (env : HookEnv) (f : Nat) (x : Val) (σ : St) (c : St → Res × St) (out : Val) (σ₁ : St),
      copiers (fun v σ' => _anything env f v σ') x = some c →
      c σ = (.ok out, σ₁) →
      _anything env (f + 1) x σ = _mask env out σ₁ ∧
      (∃ Δc, σ₁.tr = σ.tr ++ Δc) ∧
      (∃ Δm, ((_mask env out σ₁).2).tr = σ₁.tr ++ Δm)) := by
  refine ⟨fun env f x σ => tr_anything env f x σ, ?_⟩
  intro env f x σ c out σ₁ hc hrun
  have hgo : ∀ v σ, ∃ Δ, ((_anything env f v σ).2).tr = σ.tr ++ Δ :=
    fun v σ => tr_anything env f v σ
  cases x
  case invalid => simp [copiers] at hc
  case func => simp [copiers] at hc
  case chan => simp [copiers] at hc
  case unsafeptr => simp [copiers] at hc
  case atom ty d =>
    simp only [copiers, Option.some.injEq] at hc
    subst hc
    simp only [] at hrun
    rw [show _primitive (.atom ty d) σ = (.ok (.atom ty d), σ) from rfl] at hrun
    cases hrun
    exact ⟨rfl, ⟨[], by simp⟩, tr_mask env _ σ⟩
  case arr ty ety es =>
    simp only [copiers, Option.some.injEq] at hc
    subst hc
    simp only [] at hrun
    refine ⟨by rw [anything_arr, hrun]; rfl, ?_, tr_mask env out σ₁⟩
    have := tr_array (fun v σ' => _anything env f v σ') hgo (.arr ty ety es) σ
    rwa [hrun] at this
  case slice ty o =>
    simp only [copiers, Option.some.injEq] at hc
    subst hc
    simp only [] at hrun
    refine ⟨by rw [anything_slice, hrun]; rfl, ?_, tr_mask env out σ₁⟩
    have := tr_slice (fun v σ' => _anything env f v σ') hgo (.slice ty o) σ
    rwa [hrun] at this
  case mp ty es =>
    simp only [copiers, Option.some.injEq] at hc
    subst hc
    simp only [] at hrun
    refine ⟨by rw [anything_mp, hrun]; rfl, ?_, tr_mask env out σ₁⟩
    have := tr_map (fun v σ' => _anything env f v σ') hgo (.mp ty es) σ
    rwa [hrun] at this
  case ptr ety a? =>
    simp only [copiers, Option.some.injEq] at hc
    subst hc
    simp only [] at hrun
    refine ⟨by rw [anything_ptr, hrun]; rfl, ?_, tr_mask env out σ₁⟩
    have := tr_pointer (fun v σ' => _anything env f v σ') hgo (.ptr ety a?) σ
    rwa [hrun] at this
  case strct ty fs =>
    simp only [copiers, Option.some.injEq] at hc
    subst hc
    simp only [] at hrun
    refine ⟨by rw [anything_strct, hrun]; rfl, ?_, tr_mask env out σ₁⟩
    have := tr_struct (fun v σ' => _anything env f v σ') hgo (.strct ty fs) σ
    rwa [hrun] at this

theorem take_prefix_len {H heap : List Val} (h : heap.take H.length = H) :
    H.length ≤ heap.length := by
  have := congrArg List.length h
  simp [List.length_take] at this
  omega

theorem take_set_of_le (l : List Val) (i n : Nat) (v : Val) (h : n ≤ i) :
    (l.set i v).take n = l.take n := by
  apply List.ext_getElem?
  intro m
  by_cases hm : m < n
  · simp only [List.getElem?_take, hm, if_true]
    simp [List.getElem?_set, (show ¬ i = m by omega)]
  · simp only [List.getElem?_take, hm, if_false]

theorem take_append_left (l l' : List Val) (n : Nat) (h : n ≤ l.length) :
    (l ++ l').take n = l.take n := by
  rw [List.take_append_eq_append_take]
  have : n - l.length = 0 := by omega
  rw [this]
  simp

theorem frames_refl {n : Nat} (σ : St) (h : regHigh n σ) : frames n σ σ :=
  ⟨rfl, le_refl _, h⟩

theorem frames_trans {n : Nat} {σ σ₁ σ₂ : St} (h1 : frames n σ σ₁) (h2 : frames n σ₁ σ₂) :
    frames n σ σ₂ :=
  ⟨by rw [h2.1, h1.1], le_trans h1.2.1 h2.2.1, h2.2.2⟩

/-- The value hook branch leaves heap and registry untouched. -/
theorem maskValue_state (env : HookEnv) (x : Val) (σ : St) :
    ((maskValue env x σ).2).heap = σ.heap ∧ ((maskValue env x σ).2).reg = σ.reg := by
  rcases hv : (if tyName x = "" then none else env.valMethod (tyName x)) with _ | sig
  · rw [maskValue_none env x σ hv]
    exact ⟨rfl, rfl⟩
  · rw [maskValue_some env x σ sig hv]
    by_cases h1 : sig.numOut ≠ 1
    · rw [if_pos h1]; exact ⟨rfl, rfl⟩
    · rw [if_neg h1]
      by_cases h2 : sig.outName ≠ tyName x
      · rw [if_pos h2]; exact ⟨rfl, rfl⟩
      · rw [if_neg h2]; exact ⟨rfl, rfl⟩

/-- The value hook branch preserves the frame. -/
theorem frames_maskValue (env : HookEnv) (x : Val) (σ : St) {n : Nat}
    (hσ : regHigh n σ) : frames n σ ((maskValue env x σ).2) := by
  obtain ⟨hh, hr⟩ := maskValue_state env x σ
  refine ⟨by rw [hh], le_of_eq (congrArg List.length hh).symm, ?_⟩
  intro e he
  rw [hr] at he
  obtain ⟨ety', b, hb, h1, h2⟩ := hσ e he
  exact ⟨ety', b, hb, h1, by rw [hh]; exact h2⟩

/-- The hook invoker preserves the frame: the only heap write it performs
is the mutating hook's, at the pointer's own (copy-region) address. -/
theorem frames_mask (env : HookEnv) (x : Val) (σ : St) {n : Nat}
    (hn : n ≤ σ.heap.length) (hσ : regHigh n σ)
    (hx : ∀ ety a, x = .ptr ety (some a) → n ≤ a) :
    frames n σ ((_mask env x σ).2) := by
  cases x
  case ptr ety a? =>
    cases a? with
    | none => exact frames_refl σ hσ
    | some a =>
      rw [_mask]
      by_cases hm : env.ptrMasker ety
      · rw [if_pos hm]
        have ha : n ≤ a := hx ety a rfl
        refine ⟨take_set_of_le _ _ _ _ ha, by simp, ?_⟩
        intro e he
        obtain ⟨ety', b, hb, h1, h2⟩ := hσ e he
        exact ⟨ety', b, hb, h1, by simpa using h2⟩
      · rw [if_neg hm]
        exact frames_refl σ hσ
  all_goals rw [mask_eq_maskValue env _ σ (fun ety a? h => Val.noConfusion h)]
  all_goals exact frames_maskValue env _ σ hσ

theorem primitive_ok (x : Val) (σ : St) (out : Val) (σ' : St)
    (h : _primitive x σ = (.ok out, σ')) : out = x ∧ σ' = σ := by
  cases x <;> first | (cases h; exact ⟨rfl, rfl⟩) | simp [_primitive] at h

theorem slice_ok_shape (go : Val → St → Res × St) (x : Val) (σ : St) (out : Val) (σ' : St)
    (h : _slice go x σ = (.ok out, σ')) : ∃ ty items, out = .slice ty (some items) := by
  cases x
  case slice ty o =>
    rcases h1 : _sliceItems go (o.getD []) 0 σ with ⟨r, σ₁⟩
    rw [_slice, h1] at h
    cases r <;> cases h
    exact ⟨ty, _, rfl⟩
  all_goals simp [_slice] at h

theorem map_ok_shape (go : Val → St → Res × St) (x : Val) (σ : St) (out : Val) (σ' : St)
    (h : _map go x σ = (.ok out, σ')) : ∃ ty dc, out = .mp ty dc := by
  cases x
  case mp ty es =>
    rcases h1 : _mapItems go es [] σ with ⟨r, σ₁⟩
    rw [_map, h1] at h
    cases r <;> cases h
    exact ⟨ty, _, rfl⟩
  all_goals simp [_map] at h

theorem struct_ok_shape (go : Val → St → Res × St) (x : Val) (σ : St) (out : Val) (σ' : St)
    (h : _struct go x σ = (.ok out, σ')) : ∃ ty fs, out = .strct ty fs := by
  cases x
  case strct ty fs =>
    rcases h1 : _structFields go fs σ with ⟨r, σ₁⟩
    rw [_struct, h1] at h
    cases r <;> cases h
    exact ⟨ty, _, rfl⟩
  all_goals simp [_struct] at h

theorem array_ok_shape (go : Val → St → Res × St) (x : Val) (σ : St) (out : Val) (σ' : St)
    (h : _array go x σ = (.ok out, σ')) : ∃ ety items, out = .arr "" ety items := by
  cases x
  case arr ty ety es =>
    rcases h1 : _arrayItems go es 0 σ with ⟨r, σ₁⟩
    rw [_array, h1] at h
    cases r <;> cases h
    exact ⟨ety, _, rfl⟩
  all_goals simp [_array] at h

theorem frames_sliceItems (go : Val → St → Res × St) {n : Nat}
    (hgo : ∀ v σ, n ≤ σ.heap.length → regHigh n σ → frames n σ ((go v σ).2)) :
    ∀ (l : List Val) (i : Nat) (σ : St), n ≤ σ.heap.length → regHigh n σ →
      frames n σ ((_sliceItems go l i σ).2) := by
  intro l
  induction l with
  | nil => intro i σ hn hσ; exact frames_refl σ hσ
  | cons v rest ih =>
    intro i σ hn hσ
    rcases h1 : go v σ with ⟨r, σ₁⟩
    have fr1 : frames n σ σ₁ := by have := hgo v σ hn hσ; rwa [h1] at this
    simp only [_sliceItems, h1]
    cases r with
    | ok item =>
      rcases h2 : _sliceItems go rest (i + 1) σ₁ with ⟨r₂, σ₂⟩
      have fr2 : frames n σ₁ σ₂ := by
        have := ih (i + 1) σ₁ (le_trans hn fr1.2.1) fr1.2.2
        rwa [h2] at this
      simp only [h2]
      cases r₂ <;> exact frames_trans fr1 fr2
    | err e => exact fr1
    | panicked m => exact fr1
    | fuelOut => exact fr1

theorem frames_slice (go : Val → St → Res × St) {n : Nat}
    (hgo : ∀ v σ, n ≤ σ.heap.length → regHigh n σ → frames n σ ((go v σ).2))
    (x : Val) (σ : St) (hn : n ≤ σ.heap.length) (hσ : regHigh n σ) :
    frames n σ ((_slice go x σ).2) := by
  cases x
  case slice ty o =>
    rcases h1 : _sliceItems go (o.getD []) 0 σ with ⟨r, σ₁⟩
    have fr1 : frames n σ σ₁ := by
      have := frames_sliceItems go hgo (o.getD []) 0 σ hn hσ; rwa [h1] at this
    rw [_slice, h1]
    cases r <;> exact fr1
  all_goals exact frames_refl σ hσ

theorem frames_mapItems (go : Val → St → Res × St) {n : Nat}
    (hgo : ∀ v σ, n ≤ σ.heap.length → regHigh n σ → frames n σ ((go v σ).2)) :
    ∀ (l dc : List (Val × Val)) (σ : St), n ≤ σ.heap.length → regHigh n σ →
      frames n σ ((_mapItems go l dc σ).2) := by
  intro l
  induction l with
  | nil => intro dc σ hn hσ; exact frames_refl σ hσ
  | cons p rest ih =>
    rcases p with ⟨k0, v0⟩
    intro dc σ hn hσ
    rcases h1 : go v0 σ with ⟨r, σ₁⟩
    have fr1 : frames n σ σ₁ := by have := hgo v0 σ hn hσ; rwa [h1] at this
    simp only [_mapItems, h1]
    cases r with
    | ok item =>
      rcases h2 : go k0 σ₁ with ⟨r₂, σ₂⟩
      have fr2 : frames n σ₁ σ₂ := by
        have := hgo k0 σ₁ (le_trans hn fr1.2.1) fr1.2.2
        rwa [h2] at this
      simp only [h2]
      have hrec : ∀ dc', frames n σ₂ ((_mapItems go rest dc' σ₂).2) := fun dc' =>
        ih dc' σ₂ (le_trans hn (frames_trans fr1 fr2).2.1) fr2.2.2
      cases r₂ with
      | ok k =>
        cases k <;> cases item <;>
          first
            | exact frames_trans fr1 fr2
            | exact frames_trans (frames_trans fr1 fr2) (hrec _)
      | err e => exact frames_trans fr1 fr2
      | panicked m => exact frames_trans fr1 fr2
      | fuelOut => exact frames_trans fr1 fr2
    | err e => exact fr1
    | panicked m => exact fr1
    | fuelOut => exact fr1

theorem frames_map (go : Val → St → Res × St) {n : Nat}
    (hgo : ∀ v σ, n ≤ σ.heap.length → regHigh n σ → frames n σ ((go v σ).2))
    (x : Val) (σ : St) (hn : n ≤ σ.heap.length) (hσ : regHigh n σ) :
    frames n σ ((_map go x σ).2) := by
  cases x
  case mp ty es =>
    rcases h1 : _mapItems go es [] σ with ⟨r, σ₁⟩
    have fr1 : frames n σ σ₁ := by
      have := frames_mapItems go hgo es [] σ hn hσ; rwa [h1] at this
    rw [_map, h1]
    cases r <;> exact fr1
  all_goals exact frames_refl σ hσ

theorem frames_structFields (go : Val → St → Res × St) {n : Nat}
    (hgo : ∀ v σ, n ≤ σ.heap.length → regHigh n σ → frames n σ ((go v σ).2)) :
    ∀ (l : List (String × Bool × Val × Val)) (σ : St), n ≤ σ.heap.length → regHigh n σ →
      frames n σ ((_structFields go l σ).2) := by
  intro l
  induction l with
  | nil => intro σ hn hσ; exact frames_refl σ hσ
  | cons fld rest ih =>
    rcases fld with ⟨nm, ex, v, z⟩
    intro σ hn hσ
    cases ex with
    | true =>
      rcases h1 : go v σ with ⟨r, σ₁⟩
      have fr1 : frames n σ σ₁ := by have := hgo v σ hn hσ; rwa [h1] at this
      simp only [_structFields, h1, if_true]
      cases r with
      | ok item =>
        rcases h2 : _structFields go rest σ₁ with ⟨r₂, σ₂⟩
        have fr2 : frames n σ₁ σ₂ := by
          have := ih σ₁ (le_trans hn fr1.2.1) fr1.2.2
          rwa [h2] at this
        simp only [h2]
        cases item <;> first | exact fr1 | (cases r₂ <;> exact frames_trans fr1 fr2)
      | err e => exact fr1
      | panicked m => exact fr1
      | fuelOut => exact fr1
    | false =>
      rcases h2 : _structFields go rest σ with ⟨r₂, σ₂⟩
      have fr2 : frames n σ σ₂ := by have := ih σ hn hσ; rwa [h2] at this
      simp only [_structFields, h2, if_false]
      cases r₂ <;> exact fr2

theorem frames_struct (go : Val → St → Res × St) {n : Nat}
    (hgo : ∀ v σ, n ≤ σ.heap.length → regHigh n σ → frames n σ ((go v σ).2))
    (x : Val) (σ : St) (hn : n ≤ σ.heap.length) (hσ : regHigh n σ) :
    frames n σ ((_struct go x σ).2) := by
  cases x
  case strct ty fs =>
    rcases h1 : _structFields go fs σ with ⟨r, σ₁⟩
    have fr1 : frames n σ σ₁ := by
      have := frames_structFields go hgo fs σ hn hσ; rwa [h1] at this
    rw [_struct, h1]
    cases r <;> exact fr1
  all_goals exact frames_refl σ hσ

theorem frames_arrayItems (go : Val → St → Res × St) {n : Nat}
    (hgo : ∀ v σ, n ≤ σ.heap.length → regHigh n σ → frames n σ ((go v σ).2)) :
    ∀ (l : List Val) (i : Nat) (σ : St), n ≤ σ.heap.length → regHigh n σ →
      frames n σ ((_arrayItems go l i σ).2) := by
  intro l
  induction l with
  | nil => intro i σ hn hσ; exact frames_refl σ hσ
  | cons v rest ih =>
    intro i σ hn hσ
    rcases h1 : go v σ with ⟨r, σ₁⟩
    have fr1 : frames n σ σ₁ := by have := hgo v σ hn hσ; rwa [h1] at this
    simp only [_arrayItems, h1]
    cases r with
    | ok item =>
      rcases h2 : _arrayItems go rest (i + 1) σ₁ with ⟨r₂, σ₂⟩
      have fr2 : frames n σ₁ σ₂ := by
        have := ih (i + 1) σ₁ (le_trans hn fr1.2.1) fr1.2.2
        rwa [h2] at this
      simp only [h2]
      cases item <;> first | exact fr1 | (cases r₂ <;> exact frames_trans fr1 fr2)
    | err e => exact fr1
    | panicked m => exact fr1
    | fuelOut => exact fr1

theorem frames_array (go : Val → St → Res × St) {n : Nat}
    (hgo : ∀ v σ, n ≤ σ.heap.length → regHigh n σ → frames n σ ((go v σ).2))
    (x : Val) (σ : St) (hn : n ≤ σ.heap.length) (hσ : regHigh n σ) :
    frames n σ ((_array go x σ).2) := by
  cases x
  case arr ty ety es =>
    rcases h1 : _arrayItems go es 0 σ with ⟨r, σ₁⟩
    have fr1 : frames n σ σ₁ := by
      have := frames_arrayItems go hgo es 0 σ hn hσ; rwa [h1] at this
    rw [_array, h1]
    cases r <;> exact fr1
  all_goals exact frames_refl σ hσ

theorem lookup_mem {l : List (Nat × Val)} {a : Nat} {w : Val}
    (h : l.lookup a = some w) : (a, w) ∈ l := by
  induction l with
  | nil => cases h
  | cons e rest ih =>
    rcases e with ⟨k, b⟩
    rw [List.lookup] at h
    cases hk : (a == k) with
    | true =>
      simp only [hk] at h
      cases h
      have : a = k := by simpa using hk
      subst this
      exact List.mem_cons_self _ _
    | false =>
      simp only [hk] at h
      exact List.mem_cons_of_mem _ (ih h)

theorem frames_pointer (go : Val → St → Res × St) {n : Nat}
    (hgo : ∀ v σ, n ≤ σ.heap.length → regHigh n σ → frames n σ ((go v σ).2))
    (x : Val) (σ : St) (hn : n ≤ σ.heap.length) (hσ : regHigh n σ) :
    frames n σ ((_pointer go x σ).2) ∧
    (∀ out, (_pointer go x σ).1 = .ok out → ∀ ety a, out = .ptr ety (some a) →
      n ≤ a ∧ a < ((_pointer go x σ).2).heap.length) := by
  cases x
  case ptr ety a? =>
    cases a? with
    | none =>
      refine ⟨frames_refl σ hσ, ?_⟩
      intro out hout ety' a' ha'
      rw [show (_pointer go (.ptr ety none) σ).1 = .ok (.ptr ety none) from rfl] at hout
      cases hout
      cases ha'
    | some a =>
      rcases hl : σ.reg.lookup a with _ | dc
      · -- fresh copy: allocate, register, recurse, write back
        rcases h1 : go (σ.heap.getD a .invalid)
            ⟨σ.heap ++ [.invalid], (a, Val.ptr ety (some σ.heap.length)) :: σ.reg, σ.tr⟩
          with ⟨r, σ₂⟩
        have hσ₁ : regHigh n
            ⟨σ.heap ++ [.invalid], (a, Val.ptr ety (some σ.heap.length)) :: σ.reg, σ.tr⟩ := by
          intro e he
          rcases List.mem_cons.mp he with he | he
          · subst he
            exact ⟨ety, σ.heap.length, rfl, hn, by simp⟩
          · obtain ⟨ety', b, hb, h1, h2⟩ := hσ e he
            exact ⟨ety', b, hb, h1, by simp; omega⟩
        have fr0 : frames n σ
            ⟨σ.heap ++ [.invalid], (a, Val.ptr ety (some σ.heap.length)) :: σ.reg, σ.tr⟩ := by
          refine ⟨take_append_left _ _ _ hn, by simp, hσ₁⟩
        have fr1 : frames n
            ⟨σ.heap ++ [.invalid], (a, Val.ptr ety (some σ.heap.length)) :: σ.reg, σ.tr⟩ σ₂ := by
          have := hgo (σ.heap.getD a .invalid)
            ⟨σ.heap ++ [.invalid], (a, Val.ptr ety (some σ.heap.length)) :: σ.reg, σ.tr⟩
            (by simp; omega) hσ₁
          rwa [h1] at this
        have hb2 : σ.heap.length < σ₂.heap.length := by
          have := fr1.2.1
          simp at this
          omega
        simp only [_pointer, hl, h1]
        cases r with
        | ok item =>
          have frset : ∀ it : Val, frames n σ₂
              ({ σ₂ with heap := σ₂.heap.set σ.heap.length it }) := by
            intro it
            refine ⟨take_set_of_le _ _ _ _ hn, by simp, ?_⟩
            intro e he
            obtain ⟨ety', b, hb, h1', h2'⟩ := fr1.2.2 e he
            exact ⟨ety', b, hb, h1', by simpa using h2'⟩
          cases item with
          | invalid =>
            refine ⟨frames_trans fr0 fr1, ?_⟩
            intro out hout ety' a' ha'
            cases hout
            cases ha'
            exact ⟨hn, hb2⟩
          | _ =>
            refine ⟨frames_trans fr0 (frames_trans fr1 (frset _)), ?_⟩
            intro out hout ety' a' ha'
            cases hout
            cases ha'
            exact ⟨hn, by simpa using hb2⟩
        | err e =>
          exact ⟨frames_trans fr0 fr1, fun out hout => by cases hout⟩
        | panicked m =>
          exact ⟨frames_trans fr0 fr1, fun out hout => by cases hout⟩
        | fuelOut =>
          exact ⟨frames_trans fr0 fr1, fun out hout => by cases hout⟩
      · -- registry hit
        simp only [_pointer, hl]
        refine ⟨frames_refl σ hσ, ?_⟩
        intro out hout ety' a' ha'
        cases hout
        obtain ⟨ety'', b, hb, h1, h2⟩ := hσ _ (lookup_mem hl)
        have hb' : dc = Val.ptr ety'' (some b) := hb
        rw [hb'] at ha'
        cases ha'
        exact ⟨h1, h2⟩
  all_goals exact ⟨frames_refl σ hσ, fun out hout => by cases hout⟩

/-- The engine preserves the frame: the first `n` heap cells — in a
top-level call, the entire original graph — are never written, and the
registry only maps into the copy region. -/
theorem frames_anything (env : HookEnv) {n : Nat} :
    ∀ (f : Nat) (x : Val) (σ : St), n ≤ σ.heap.length → regHigh n σ →
      frames n σ ((_anything env f x σ).2) := by
  intro f
  induction f with
  | zero => intro x σ hn hσ; exact frames_refl σ hσ
  | succ f ih =>
    intro x σ hn hσ
    have hgo : ∀ v σ, n ≤ σ.heap.length → regHigh n σ →
        frames n σ ((_anything env f v σ).2) := ih
    cases x
    case invalid => exact frames_refl σ hσ
    case func => exact frames_refl σ hσ
    case chan => exact frames_refl σ hσ
    case unsafeptr => exact frames_refl σ hσ
    case atom ty d =>
      rw [anything_atom]
      exact frames_mask env _ σ hn hσ (fun ety a h => Val.noConfusion h)
    case arr ty ety es =>
      rw [anything_arr]
      rcases h1 : _array (fun v σ' => _anything env f v σ') (.arr ty ety es) σ with ⟨r, σ₁⟩
      have fr1 : frames n σ σ₁ := by
        have := frames_array _ hgo (.arr ty ety es) σ hn hσ; rwa [h1] at this
      cases r with
      | ok out =>
        obtain ⟨ety', items, rfl⟩ := array_ok_shape _ _ _ _ _ h1
        exact frames_trans fr1 (frames_mask env _ σ₁ (le_trans hn fr1.2.1) fr1.2.2
          (fun ety a h => Val.noConfusion h))
      | err e => exact fr1
      | panicked m => exact fr1
      | fuelOut => exact fr1
    case slice ty o =>
      rw [anything_slice]
      rcases h1 : _slice (fun v σ' => _anything env f v σ') (.slice ty o) σ with ⟨r, σ₁⟩
      have fr1 : frames n σ σ₁ := by
        have := frames_slice _ hgo (.slice ty o) σ hn hσ; rwa [h1] at this
      cases r with
      | ok out =>
        obtain ⟨ty', items, rfl⟩ := slice_ok_shape _ _ _ _ _ h1
        exact frames_trans fr1 (frames_mask env _ σ₁ (le_trans hn fr1.2.1) fr1.2.2
          (fun ety a h => Val.noConfusion h))
      | err e => exact fr1
      | panicked m => exact fr1
      | fuelOut => exact fr1
    case mp ty es =>
      rw [anything_mp]
      rcases h1 : _map (fun v σ' => _anything env f v σ') (.mp ty es) σ with ⟨r, σ₁⟩
      have fr1 : frames n σ σ₁ := by
        have := frames_map _ hgo (.mp ty es) σ hn hσ; rwa [h1] at this
      cases r with
      | ok out =>
        obtain ⟨ty', dc, rfl⟩ := map_ok_shape _ _ _ _ _ h1
        exact frames_trans fr1 (frames_mask env _ σ₁ (le_trans hn fr1.2.1) fr1.2.2
          (fun ety a h => Val.noConfusion h))
      | err e => exact fr1
      | panicked m => exact fr1
      | fuelOut => exact fr1
    case strct ty fs =>
      rw [anything_strct]
      rcases h1 : _struct (fun v σ' => _anything env f v σ') (.strct ty fs) σ with ⟨r, σ₁⟩
      have fr1 : frames n σ σ₁ := by
        have := frames_struct _ hgo (.strct ty fs) σ hn hσ; rwa [h1] at this
      cases r with
      | ok out =>
        obtain ⟨ty', fs', rfl⟩ := struct_ok_shape _ _ _ _ _ h1
        exact frames_trans fr1 (frames_mask env _ σ₁ (le_trans hn fr1.2.1) fr1.2.2
          (fun ety a h => Val.noConfusion h))
      | err e => exact fr1
      | panicked m => exact fr1
      | fuelOut => exact fr1
    case ptr ety a? =>
      rw [anything_ptr]
      rcases h1 : _pointer (fun v σ' => _anything env f v σ') (.ptr ety a?) σ with ⟨r, σ₁⟩
      obtain ⟨fr1', hshape⟩ := frames_pointer _ hgo (.ptr ety a?) σ hn hσ
      rw [h1] at fr1' hshape
      cases r with
      | ok out =>
        refine frames_trans fr1' (frames_mask env _ σ₁ (le_trans hn fr1'.2.1) fr1'.2.2 ?_)
        intro ety' a ha
        exact (hshape out rfl ety' a ha).1
      | err e => exact fr1'
      | panicked m => exact fr1'
      | fuelOut => exact fr1'

theorem ite_snd (c : Prop) [Decidable c] (y₁ y₂ : MRes) (σ : St) :
    (if c then (y₁, σ) else (y₂, σ)).2 = σ := by
  split <;> rfl

/-- `Mask` hands back the engine's final state unchanged, whatever the
outcome. -/
theorem mask_state_eq (env : HookEnv) (fuel : Nat) (H : List Val) (x : Val) :
    (Mask env fuel H x).2 = ((_anything env fuel x ⟨H, [], []⟩).2) := by
  rcases h : _anything env fuel x ⟨H, [], []⟩ with ⟨r, σ'⟩
  rw [Mask, h]
  cases r with
  | ok out => cases out <;> first | rfl | exact ite_snd _ _ _ σ'
  | err e => rfl
  | panicked m => rfl
  | fuelOut => rfl

/-- `Must` hands back `Mask`'s final state unchanged. -/
theorem must_state_eq (env : HookEnv) (fuel : Nat) (H : List Val) (x : Val) :
    (Must env fuel H x).2 = (Mask env fuel H x).2 := by
  rcases h : Mask env fuel H x with ⟨r, σ'⟩
  rw [Must, h]
  cases r with
  | ret v e => cases e <;> rfl
  | panicked m => rfl
  | fuelOut => rfl

/-- C4: for every input, environment and fuel, after `Mask` or `Must`
returns — by value, error, or panic — the original heap (the first
`H.length` cells, holding the original value graph) is unchanged; hooks
only ever write to the copy region (addresses at or above `H.length`),
never to original storage. -/
theorem c4_source_never_mutated (env : HookEnv) (fuel : Nat) (H : List Val) (x : Val) :
    ((Mask env fuel H x).2).heap.take H.length = H ∧
    ((Must env fuel H x).2).heap.take H.length = H ∧
    (∀ (f : Nat) (x' : Val) (σ : St) (n : Nat), n ≤ σ.heap.length → regHigh n σ →
      frames n σ ((_anything env f x' σ).2)) := by
  have base : ((_anything env fuel x ⟨H, [], []⟩).2).heap.take H.length = H := by
    have hσ : regHigh H.length (⟨H, [], []⟩ : St) := fun e he => absurd he (List.not_mem_nil e)
    have := (frames_anything env fuel x ⟨H, [], []⟩ (le_refl _) hσ).1
    rw [this]
    exact List.take_length H
  refine ⟨by rw [mask_state_eq]; exact base,
    by rw [must_state_eq, mask_state_eq]; exact base,
    fun f x' σ n hn hσ => frames_anything env f x' σ hn hσ⟩

/-- Witness for `c6_amended_postorder_at_completion`: the decomposition
instantiated at a concrete atom copy. -/
theorem c6_amended_postorder_at_completion_witness :
    _anything noHooks 1 (.atom "x" "1") ⟨[], [], []⟩ =
      _mask noHooks (.atom "x" "1") ⟨[], [], []⟩ ∧
    (∃ Δc, (⟨[], [], []⟩ : St).tr = (⟨[], [], []⟩ : St).tr ++ Δc) ∧
    (∃ Δm, ((_mask noHooks (.atom "x" "1") ⟨[], [], []⟩).2).tr =
      (⟨[], [], []⟩ : St).tr ++ Δm) :=
  c6_amended_postorder_at_completion.2 noHooks 0 (.atom "x" "1") ⟨[], [], []⟩
    (fun σ => _primitive (.atom "x" "1") σ) (.atom "x" "1") ⟨[], [], []⟩ rfl rfl

/-- Witness for `c4_source_never_mutated`: the concrete self-referential
scenario plus a concrete engine-level frame instance. -/
theorem c4_source_never_mutated_witness :
    ((Mask noHooks 3 fooHeap (.ptr "Foo" (some 0))).2).heap.take fooHeap.length = fooHeap ∧
    frames 0 ⟨[], [], []⟩ ((_anything noHooks 1 (.atom "x" "1") ⟨[], [], []⟩).2) :=
  ⟨(c4_source_never_mutated noHooks 3 fooHeap (.ptr "Foo" (some 0))).1,
   (c4_source_never_mutated noHooks 3 fooHeap (.ptr "Foo" (some 0))).2.2 1 (.atom "x" "1")
     ⟨[], [], []⟩ 0 (Nat.le_refl 0) (fun e he => absurd he (List.not_mem_nil e))⟩

/-- C7: the record handler's field loop agrees exactly with the
spec-derived relation `CopiesFields`: each exported field's copy is the
engine's result on the source field, each non-exported field is left at
its declared zero value. -/
theorem structFields_cons_exp_ok (go : Val → St → Res × St) (nm : String) (v z : Val)
    (rest : List (String × Bool × Val × Val)) (σ : St) (item : Val) (σ₁ : St)
    (h1 : go v σ = (.ok item, σ₁)) (hinv : item ≠ .invalid) :
    _structFields go ((nm, true, v, z) :: rest) σ =
      (match _structFields go rest σ₁ with
       | (.ok fs, σ₂) => (.ok ((nm, true, item, z) :: fs), σ₂)
       | (.err e, σ₂) => (.err e, σ₂)
       | (.panicked m, σ₂) => (.panicked m, σ₂)
       | (.fuelOut, σ₂) => (.fuelOut, σ₂)) := by
  rw [_structFields, if_pos rfl, h1]
  cases item <;> first | rfl | exact absurd rfl hinv

theorem c7_struct_fields_spec (go : Val → St → Res × St)
    (fs : List (String × Bool × Val × Val)) (σ : St)
    (fs' : List (String × Bool × Val × Val)) (σ' : St) :
    _structFields go fs σ = (.ok fs', σ') ↔ CopiesFields go fs σ fs' σ' := by
  constructor
  · intro h
    induction fs generalizing σ fs' σ' with
    | nil =>
      rw [_structFields] at h
      cases h
      exact CopiesFields.nil σ
    | cons fld rest ih =>
      rcases fld with ⟨nm, ex, v, z⟩
      cases ex with
      | true =>
        rcases h1 : go v σ with ⟨r, σ₁⟩
        cases r with
        | ok item =>
          by_cases hinv : item = .invalid
          · subst hinv
            rw [_structFields, if_pos rfl, h1] at h
            cases h
          · rw [structFields_cons_exp_ok go nm v z rest σ item σ₁ h1 hinv] at h
            rcases h2 : _structFields go rest σ₁ with ⟨r₂, σ₂⟩
            rw [h2] at h
            cases r₂ <;> cases h
            exact CopiesFields.consExported h1 hinv (ih σ₁ _ _ h2)
        | err e => rw [_structFields, if_pos rfl, h1] at h; cases h
        | panicked m => rw [_structFields, if_pos rfl, h1] at h; cases h
        | fuelOut => rw [_structFields, if_pos rfl, h1] at h; cases h
      | false =>
        rcases h2 : _structFields go rest σ with ⟨r₂, σ₂⟩
        rw [_structFields, if_neg Bool.false_ne_true, h2] at h
        cases r₂ <;> cases h
        exact CopiesFields.consUnexported (ih σ _ _ h2)
  · intro h
    induction h with
    | nil => rfl
    | consExported h1 hinv hrest ih =>
      rename_i nm v z item rest σ σ₁ fs₁ σ₂
      rw [structFields_cons_exp_ok go nm v z rest σ item σ₁ h1 hinv, ih]
    | consUnexported hrest ih =>
      rw [_structFields, if_neg Bool.false_ne_true, ih]

/-- Witness for `c7_struct_fields_spec`: a concrete two-field record (one
exported, one not). -/
theorem c7_struct_fields_spec_witness :
    CopiesFields (fun v σ => _anything noHooks 1 v σ)
      [("A", true, .atom "int" "7", .atom "int" "0"),
       ("b", false, .atom "int" "9", .atom "int" "0")] ⟨[], [], []⟩
      [("A", true, .atom "int" "7", .atom "int" "0"),
       ("b", false, .atom "int" "0", .atom "int" "0")] ⟨[], [], []⟩ :=
  (c7_struct_fields_spec (fun v σ => _anything noHooks 1 v σ)
    [("A", true, .atom "int" "7", .atom "int" "0"),
     ("b", false, .atom "int" "9", .atom "int" "0")] ⟨[], [], []⟩
    [("A", true, .atom "int" "7", .atom "int" "0"),
     ("b", false, .atom "int" "0", .atom "int" "0")] ⟨[], [], []⟩).mp rfl

/-- Custom induction principle for `Val`, descending into list members
(only the components the engine traverses). -/
theorem Val.inductOn (P : Val → Prop)
    (h1 : ∀ ty d, P (.atom ty d))
    (h2 : ∀ ty ety es, (∀ v ∈ es, P v) → P (.arr ty ety es))
    (h3 : ∀ ty, P (.slice ty none))
    (h4 : ∀ ty l, (∀ v ∈ l, P v) → P (.slice ty (some l)))
    (h5 : ∀ ty es, (∀ p ∈ es, P (Prod.fst p) ∧ P (Prod.snd p)) → P (.mp ty es))
    (h6 : ∀ ety a?, P (.ptr ety a?))
    (h7 : ∀ ty fs, (∀ fld ∈ fs, P fld.2.2.1) → P (.strct ty fs))
    (h8 : P .func) (h9 : P .chan) (h10 : P .unsafeptr) (h11 : P .invalid) :
    ∀ v, P v := by
  have key : ∀ (N : Nat) (v : Val), sizeOf v ≤ N → P v := by
    intro N
    induction N with
    | zero =>
      intro v hv
      exfalso
      cases v <;> simp_arith at hv
    | succ N ihN =>
      intro v hv
      cases v with
      | atom ty d => exact h1 ty d
      | arr ty ety es =>
        refine h2 ty ety es (fun w hw => ihN w ?_)
        have h := List.sizeOf_lt_of_mem hw
        simp_arith at hv
        omega
      | slice ty o =>
        cases o with
        | none => exact h3 ty
        | some l =>
          refine h4 ty l (fun w hw => ihN w ?_)
          have h := List.sizeOf_lt_of_mem hw
          simp_arith at hv
          omega
      | mp ty es =>
        refine h5 ty es (fun p hp => ?_)
        have h := List.sizeOf_lt_of_mem hp
        rcases p with ⟨k, w⟩
        simp_arith at hv h
        exact ⟨ihN k (by omega), ihN w (by omega)⟩
      | ptr ety a? => exact h6 ety a?
      | strct ty fs =>
        refine h7 ty fs (fun fld hfld => ?_)
        have h := List.sizeOf_lt_of_mem hfld
        rcases fld with ⟨nm, ex, w, z⟩
        simp_arith at hv h
        exact ihN w (by omega)
      | func => exact h8
      | chan => exact h9
      | unsafeptr => exact h10
      | invalid => exact h11
  intro v
  exact key (sizeOf v) v (le_refl _)

theorem ptrOccsL_sub {v : Val} {l : List Val} (hv : v ∈ l) :
    ∀ p ∈ ptrOccs v, p ∈ ptrOccsL l := by
  induction l with
  | nil => cases hv
  | cons w rest ih =>
    intro p hp
    rw [ptrOccsL]
    rcases List.mem_cons.mp hv with rfl | hv'
    · exact List.mem_append_left _ hp
    · exact List.mem_append_right _ (ih hv' p hp)

theorem ptrOccsM_sub {p : Val × Val} {l : List (Val × Val)} (hp : p ∈ l) :
    (∀ q ∈ ptrOccs p.1, q ∈ ptrOccsM l) ∧ (∀ q ∈ ptrOccs p.2, q ∈ ptrOccsM l) := by
  induction l with
  | nil => cases hp
  | cons w rest ih =>
    rcases w with ⟨k, v⟩
    rcases List.mem_cons.mp hp with rfl | hp'
    · constructor
      · intro q hq
        rw [ptrOccsM]
        simp only [List.mem_append]
        tauto
      · intro q hq
        rw [ptrOccsM]
        simp only [List.mem_append]
        tauto
    · constructor
      · intro q hq
        rw [ptrOccsM]
        simp only [List.mem_append]
        exact Or.inr ((ih hp').1 q hq)
      · intro q hq
        rw [ptrOccsM]
        simp only [List.mem_append]
        exact Or.inr ((ih hp').2 q hq)

theorem ptrOccsF_sub {nm : String} {v z : Val} {l : List (String × Bool × Val × Val)}
    (hf : (nm, true, v, z) ∈ l) : ∀ q ∈ ptrOccs v, q ∈ ptrOccsF l := by
  induction l with
  | nil => cases hf
  | cons w rest ih =>
    rcases w with ⟨nm', ex', v', z'⟩
    intro q hq
    rw [ptrOccsF]
    rcases List.mem_cons.mp hf with he | hf'
    · cases he
      exact List.mem_append_left _ (by simpa using hq)
    · exact List.mem_append_right _ (ih hf' q hq)

theorem addrsOf_mem {v : Val} {a : Nat} :
    a ∈ addrsOf v ↔ ∃ e, (e, a) ∈ ptrOccs v := by
  rw [addrsOf]
  constructor
  · intro h
    obtain ⟨p, hp, hpa⟩ := List.mem_map.mp h
    rcases p with ⟨e, b⟩
    cases hpa
    exact ⟨e, hp⟩
  · rintro ⟨e, he⟩
    exact List.mem_map.mpr ⟨(e, a), he, rfl⟩

theorem mirrorL_congr (g g' : Nat → Option Nat) (l : List Val)
    (h : ∀ v ∈ l, (∀ a ∈ addrsOf v, g a = g' a) → mirror g v = mirror g' v)
    (hagree : ∀ v ∈ l, ∀ a ∈ addrsOf v, g a = g' a) :
    mirrorL g l = mirrorL g' l := by
  induction l with
  | nil => rfl
  | cons v rest ih =>
    rw [mirrorL, mirrorL,
      h v (List.mem_cons_self _ _) (hagree v (List.mem_cons_self _ _)),
      ih (fun w hw => h w (List.mem_cons_of_mem _ hw))
         (fun w hw => hagree w (List.mem_cons_of_mem _ hw))]

theorem mirrorM_congr (g g' : Nat → Option Nat) (l : List (Val × Val))
    (h : ∀ p ∈ l,
      ((∀ a ∈ addrsOf (Prod.fst p), g a = g' a) → mirror g (Prod.fst p) = mirror g' (Prod.fst p)) ∧
      ((∀ a ∈ addrsOf (Prod.snd p), g a = g' a) → mirror g (Prod.snd p) = mirror g' (Prod.snd p)))
    (hagree : ∀ p ∈ l, (∀ a ∈ addrsOf (Prod.fst p), g a = g' a) ∧
      (∀ a ∈ addrsOf (Prod.snd p), g a = g' a)) :
    ∀ dc, mirrorM g l dc = mirrorM g' l dc := by
  induction l with
  | nil => intro dc; rfl
  | cons p rest ih =>
    rcases p with ⟨k, v⟩
    intro dc
    have hk : mirror g k = mirror g' k :=
      (h (k, v) (List.mem_cons_self _ _)).1 (hagree (k, v) (List.mem_cons_self _ _)).1
    have hv : mirror g v = mirror g' v :=
      (h (k, v) (List.mem_cons_self _ _)).2 (hagree (k, v) (List.mem_cons_self _ _)).2
    have ihr := ih (fun q hq => h q (List.mem_cons_of_mem _ hq))
      (fun q hq => hagree q (List.mem_cons_of_mem _ hq))
    rw [mirrorM, mirrorM, ← hk, ← hv]
    cases hvv : mirror g v <;> simp only [ihr]

theorem mirrorF_congr (g g' : Nat → Option Nat) (l : List (String × Bool × Val × Val))
    (h : ∀ fld ∈ l, (∀ a ∈ addrsOf fld.2.2.1, g a = g' a) →
      mirror g fld.2.2.1 = mirror g' fld.2.2.1)
    (hagree : ∀ fld ∈ l, fld.2.1 = true → ∀ a ∈ addrsOf fld.2.2.1, g a = g' a) :
    mirrorF g l = mirrorF g' l := by
  induction l with
  | nil => rfl
  | cons fld rest ih =>
    rcases fld with ⟨nm, ex, v, z⟩
    have ihr := ih (fun q hq => h q (List.mem_cons_of_mem _ hq))
      (fun q hq => hagree q (List.mem_cons_of_mem _ hq))
    rw [mirrorF, mirrorF, ihr]
    cases ex with
    | true =>
      rw [h (nm, true, v, z) (List.mem_cons_self _ _)
        (hagree (nm, true, v, z) (List.mem_cons_self _ _) rfl)]
    | false => rfl

/-- Renamings that agree on a value's traversed addresses produce the same
mirror. -/
theorem mirror_congr (g g' : Nat → Option Nat) :
    ∀ v : Val, (∀ a ∈ addrsOf v, g a = g' a) → mirror g v = mirror g' v := by
  refine Val.inductOn (fun v => (∀ a ∈ addrsOf v, g a = g' a) → mirror g v = mirror g' v)
    ?_ ?_ ?_ ?_ ?_ ?_ ?_ ?_ ?_ ?_ ?_
  · intro ty d _
    rfl
  · intro ty ety es ih hagree
    rw [mirror, mirror, mirrorL_congr g g' es ih ?_]
    intro v hv a ha
    refine hagree a ?_
    rw [addrsOf] at ha ⊢
    obtain ⟨p, hp, hpa⟩ := List.mem_map.mp ha
    exact List.mem_map.mpr ⟨p, by rw [ptrOccs]; exact ptrOccsL_sub hv p hp, hpa⟩
  · intro ty _
    rfl
  · intro ty l ih hagree
    rw [mirror, mirror, mirrorL_congr g g' l ih ?_]
    intro v hv a ha
    refine hagree a ?_
    rw [addrsOf] at ha ⊢
    obtain ⟨p, hp, hpa⟩ := List.mem_map.mp ha
    exact List.mem_map.mpr ⟨p, by rw [ptrOccs]; exact ptrOccsL_sub hv p hp, hpa⟩
  · intro ty es ih hagree
    rw [mirror, mirror, mirrorM_congr g g' es ih ?_ []]
    intro p hp
    constructor
    · intro a ha
      refine hagree a ?_
      rw [addrsOf] at ha ⊢
      obtain ⟨q, hq, hqa⟩ := List.mem_map.mp ha
      exact List.mem_map.mpr ⟨q, by rw [ptrOccs]; exact (ptrOccsM_sub hp).1 q hq, hqa⟩
    · intro a ha
      refine hagree a ?_
      rw [addrsOf] at ha ⊢
      obtain ⟨q, hq, hqa⟩ := List.mem_map.mp ha
      exact List.mem_map.mpr ⟨q, by rw [ptrOccs]; exact (ptrOccsM_sub hp).2 q hq, hqa⟩
  · intro ety a? hagree
    cases a? with
    | none => rfl
    | some a =>
      have hmem : a ∈ addrsOf (Val.ptr ety (some a)) := by
        rw [addrsOf, ptrOccs]
        exact List.mem_map_of_mem _ (List.mem_singleton.mpr rfl)
      rw [mirror, mirror, hagree a hmem]
  · intro ty fs ih hagree
    rw [mirror, mirror, mirrorF_congr g g' fs ih ?_]
    rintro ⟨nm, ex, v, z⟩ hf hex a ha
    subst hex
    refine hagree a ?_
    rw [addrsOf] at ha ⊢
    obtain ⟨q, hq, hqa⟩ := List.mem_map.mp ha
    exact List.mem_map.mpr ⟨q, by rw [ptrOccs]; exact ptrOccsF_sub hf q hq, hqa⟩
  · intro _
    rfl
  · intro _
    rfl
  · intro _
    rfl
  · intro _
    rfl

theorem isInvalid_iff (v : Val) : v.isInvalid = true ↔ v = .invalid := by
  cases v <;> simp [Val.isInvalid]

theorem isInvalid_false_iff (v : Val) : v.isInvalid = false ↔ v ≠ .invalid := by
  cases v <;> simp [Val.isInvalid]

/-- With no hooks registered, the hook invoker is the identity. -/
theorem mask_noHooks (x : Val) (σ : St) : _mask noHooks x σ = (.ok x, σ) := by
  cases x
  case ptr ety a? =>
    cases a? with
    | none => rfl
    | some a =>
      rw [_mask]
      exact if_neg Bool.false_ne_true
  all_goals rw [mask_eq_maskValue noHooks _ σ (fun ety a? h => Val.noConfusion h)]
  all_goals exact maskValue_none noHooks _ σ (ite_self none)

theorem andMask_noHooks (r : Res × St) : andMask noHooks r = r := by
  rcases r with ⟨res, σ⟩
  cases res
  case ok out => exact mask_noHooks out σ
  all_goals rfl

theorem getD_pref {heap H : List Val} (h : heap.take H.length = H) {a : Nat}
    (ha : a < H.length) : heap.getD a .invalid = H.getD a .invalid := by
  have hq : H[a]? = heap[a]? := by
    rw [← h]
    simp only [List.getElem?_take, ha, if_true]
  rw [List.getD_eq_getElem?_getD, List.getD_eq_getElem?_getD, hq]

theorem getD_append_lt {l l' : List Val} {i : Nat} (h : i < l.length) (d : Val) :
    (l ++ l').getD i d = l.getD i d := by
  rw [List.getD_eq_getElem?_getD, List.getD_eq_getElem?_getD]
  simp [List.getElem?_append, h]

theorem getD_append_self (l : List Val) (x d : Val) :
    (l ++ [x]).getD l.length d = x := by
  rw [List.getD_eq_getElem?_getD, List.getElem?_append_right (le_refl _)]
  simp

theorem getD_set_self {l : List Val} {b : Nat} (h : b < l.length) (x d : Val) :
    (l.set b x).getD b d = x := by
  rw [List.getD_eq_getElem?_getD]
  simp [List.getElem?_set, h]

theorem getD_set_ne {l : List Val} {b b' : Nat} (h : b ≠ b') (x d : Val) :
    (l.set b x).getD b' d = l.getD b' d := by
  rw [List.getD_eq_getElem?_getD, List.getD_eq_getElem?_getD]
  simp [List.getElem?_set, h]

theorem getD_mem {l : List Val} {a : Nat} (h : a < l.length) (d : Val) :
    l.getD a d ∈ l := by
  have he : l.getD a d = l[a] := by
    rw [List.getD_eq_getElem?_getD, List.getElem?_eq_getElem h]
    rfl
  rw [he]
  exact List.getElem_mem h

theorem lookup_isSome_of_mem {r : List (Nat × Val)} {a : Nat} {w : Val}
    (h : (a, w) ∈ r) : (r.lookup a).isSome := by
  induction r with
  | nil => cases h
  | cons e rest ih =>
    rcases e with ⟨k, u⟩
    rw [List.lookup]
    cases hk : (a == k) with
    | true => simp
    | false =>
      rcases List.mem_cons.mp h with he | h'
      · cases he
        simp at hk
      · exact ih h'

theorem lookup_cons_self (a : Nat) (w : Val) (r : List (Nat × Val)) :
    List.lookup a ((a, w) :: r) = some w := by
  rw [List.lookup]
  simp

theorem regExt_refl (r : List (Nat × Val)) : regExt r r := fun _ _ h => h

theorem regExt_trans {r r₁ r₂ : List (Nat × Val)} (h1 : regExt r r₁)
    (h2 : regExt r₁ r₂) : regExt r r₂ :=
  fun a w h => h2 a w (h1 a w h)

theorem regExt_cons {r : List (Nat × Val)} {a : Nat} {w : Val}
    (h : r.lookup a = none) : regExt r ((a, w) :: r) := by
  intro k u hk
  rw [List.lookup]
  cases hb : (k == a) with
  | true =>
    have hka : k = a := by simpa using hb
    subst hka
    rw [hk] at h
    cases h
  | false => exact hk

theorem lookupAddr_ext {r r' : List (Nat × Val)} (h : regExt r r') {a : Nat}
    (hs : (lookupAddr r a).isSome) : lookupAddr r' a = lookupAddr r a := by
  rcases hl : r.lookup a with _ | w
  · rw [lookupAddr, hl] at hs
    simp at hs
  · rw [lookupAddr, lookupAddr, h a w hl, hl]

theorem covered_ext {r r' : List (Nat × Val)} (h : regExt r r') {v : Val}
    (hc : covered r v) : covered r' v := by
  intro a ha
  have hs := hc a ha
  rw [lookupAddr_ext h hs]
  exact hs

theorem mirror_ext {r r' : List (Nat × Val)} (h : regExt r r') {v : Val}
    (hc : covered r v) : mirror (lookupAddr r') v = mirror (lookupAddr r) v :=
  mirror_congr _ _ v (fun a ha => lookupAddr_ext h (hc a ha))

theorem mem_key_unique :
    ∀ {r : List (Nat × Val)}, r.Pairwise (fun e e' => e.1 ≠ e'.1) →
    ∀ {a : Nat} {w : Val}, (a, w) ∈ r → ∀ e ∈ r, e.1 = a → e = (a, w) := by
  intro r
  induction r with
  | nil =>
    intro _ _ _ h
    cases h
  | cons e0 rest ih =>
    intro hp a w hw e he hea
    have hp' := List.pairwise_cons.mp hp
    rcases List.mem_cons.mp hw with hw0 | hw'
    · rcases List.mem_cons.mp he with he0 | he'
      · rw [he0, ← hw0]
      · exfalso
        have hne := hp'.1 e he'
        rw [← hw0] at hne
        exact hne hea.symm
    · rcases List.mem_cons.mp he with he0 | he'
      · exfalso
        have hne := hp'.1 (a, w) hw'
        exact hne (by rw [← he0]; exact hea)
      · exact ih hp'.2 hw' e he' hea

theorem mirror_invalid_iff (g : Nat → Option Nat) (v : Val) :
    mirror g v = .invalid ↔ v = .invalid := by
  cases v
  case slice ty o => cases o <;> simp [mirror]
  case ptr ety a? => cases a? <;> simp [mirror]
  all_goals simp [mirror]

theorem nafL_mem {l : List Val} (h : namedArrFreeL l = true) {v : Val} (hv : v ∈ l) :
    namedArrFree v = true := by
  induction l with
  | nil => cases hv
  | cons w rest ih =>
    rw [namedArrFreeL, Bool.and_eq_true] at h
    rcases List.mem_cons.mp hv with rfl | hv'
    · exact h.1
    · exact ih h.2 hv'

theorem nafM_mem {l : List (Val × Val)} (h : namedArrFreeM l = true) {k v : Val}
    (hkv : (k, v) ∈ l) : namedArrFree k = true ∧ namedArrFree v = true := by
  induction l with
  | nil => cases hkv
  | cons w rest ih =>
    rcases w with ⟨k0, v0⟩
    rw [namedArrFreeM, Bool.and_eq_true, Bool.and_eq_true] at h
    rcases List.mem_cons.mp hkv with he | h'
    · cases he
      exact ⟨h.1.2, h.1.1⟩
    · exact ih h.2 h'

theorem nafF_mem {l : List (String × Bool × Val × Val)} (h : namedArrFreeF l = true)
    {nm : String} {v z : Val} (hf : (nm, true, v, z) ∈ l) : namedArrFree v = true := by
  induction l with
  | nil => cases hf
  | cons w rest ih =>
    rcases w with ⟨nm0, ex0, v0, z0⟩
    rw [namedArrFreeF, Bool.and_eq_true] at h
    rcases List.mem_cons.mp hf with he | h'
    · cases he
      simpa using h.1
    · exact ih h.2 h'

theorem naf_arr {ty ety : String} {es : List Val}
    (h : namedArrFree (.arr ty ety es) = true) :
    ty = "" ∧ ∀ v ∈ es, namedArrFree v = true := by
  rw [namedArrFree, Bool.and_eq_true] at h
  exact ⟨by simpa using h.1, fun v hv => nafL_mem h.2 hv⟩

theorem naf_slice {ty : String} {l : List Val}
    (h : namedArrFree (.slice ty (some l)) = true) :
    ∀ v ∈ l, namedArrFree v = true := by
  rw [namedArrFree] at h
  exact fun v hv => nafL_mem h hv

theorem naf_mp {ty : String} {es : List (Val × Val)}
    (h : namedArrFree (.mp ty es) = true) :
    ∀ q ∈ es, namedArrFree q.1 = true ∧ namedArrFree q.2 = true := by
  rw [namedArrFree] at h
  rintro ⟨k, v⟩ hq
  exact nafM_mem h hq

theorem naf_strct {ty : String} {fs : List (String × Bool × Val × Val)}
    (h : namedArrFree (.strct ty fs) = true) :
    ∀ fld ∈ fs, fld.2.1 = true → namedArrFree fld.2.2.1 = true := by
  rw [namedArrFree] at h
  rintro ⟨nm, ex, v, z⟩ hf hex
  subst hex
  exact nafF_mem h hf

theorem occsOk_arr {E : Nat → String} {n : Nat} {ty ety : String} {es : List Val}
    (h : occsOk E n (.arr ty ety es)) : ∀ v ∈ es, occsOk E n v :=
  fun v hv p hp => h p (by rw [ptrOccs]; exact ptrOccsL_sub hv p hp)

theorem occsOk_slice {E : Nat → String} {n : Nat} {ty : String} {l : List Val}
    (h : occsOk E n (.slice ty (some l))) : ∀ v ∈ l, occsOk E n v :=
  fun v hv p hp => h p (by rw [ptrOccs]; exact ptrOccsL_sub hv p hp)

theorem occsOk_mp {E : Nat → String} {n : Nat} {ty : String} {es : List (Val × Val)}
    (h : occsOk E n (.mp ty es)) : ∀ q ∈ es, occsOk E n q.1 ∧ occsOk E n q.2 :=
  fun q hq =>
    ⟨fun p hp => h p (by rw [ptrOccs]; exact (ptrOccsM_sub hq).1 p hp),
     fun p hp => h p (by rw [ptrOccs]; exact (ptrOccsM_sub hq).2 p hp)⟩

theorem occsOk_strct {E : Nat → String} {n : Nat} {ty : String}
    {fs : List (String × Bool × Val × Val)} (h : occsOk E n (.strct ty fs)) :
    ∀ fld ∈ fs, fld.2.1 = true → occsOk E n fld.2.2.1 := by
  rintro ⟨nm, ex, v, z⟩ hf hex p hp
  subst hex
  exact h p (by rw [ptrOccs]; exact ptrOccsF_sub hf p hp)

theorem ptrOccsL_mem_rev {l : List Val} {p : String × Nat} (hp : p ∈ ptrOccsL l) :
    ∃ v ∈ l, p ∈ ptrOccs v := by
  induction l with
  | nil =>
    rw [ptrOccsL] at hp
    cases hp
  | cons v rest ih =>
    rw [ptrOccsL, List.mem_append] at hp
    rcases hp with h | h
    · exact ⟨v, List.mem_cons_self _ _, h⟩
    · obtain ⟨w, hw, hpw⟩ := ih h
      exact ⟨w, List.mem_cons_of_mem _ hw, hpw⟩

theorem ptrOccsM_mem_rev {l : List (Val × Val)} {p : String × Nat}
    (hp : p ∈ ptrOccsM l) : ∃ q ∈ l, p ∈ ptrOccs q.1 ∨ p ∈ ptrOccs q.2 := by
  induction l with
  | nil =>
    rw [ptrOccsM] at hp
    cases hp
  | cons q rest ih =>
    rcases q with ⟨k, v⟩
    rw [ptrOccsM, List.mem_append, List.mem_append] at hp
    rcases hp with (h | h) | h
    · exact ⟨(k, v), List.mem_cons_self _ _, Or.inr h⟩
    · exact ⟨(k, v), List.mem_cons_self _ _, Or.inl h⟩
    · obtain ⟨w, hw, hpw⟩ := ih h
      exact ⟨w, List.mem_cons_of_mem _ hw, hpw⟩

theorem ptrOccsF_mem_rev {l : List (String × Bool × Val × Val)} {p : String × Nat}
    (hp : p ∈ ptrOccsF l) : ∃ nm v z, (nm, true, v, z) ∈ l ∧ p ∈ ptrOccs v := by
  induction l with
  | nil =>
    rw [ptrOccsF] at hp
    cases hp
  | cons w rest ih =>
    rcases w with ⟨nm0, ex0, v0, z0⟩
    rw [ptrOccsF, List.mem_append] at hp
    rcases hp with h | h
    · cases ex0 with
      | true => exact ⟨nm0, v0, z0, List.mem_cons_self _ _, by simpa using h⟩
      | false => simp at h
    · obtain ⟨nm, v, z, hw, hpw⟩ := ih h
      exact ⟨nm, v, z, List.mem_cons_of_mem _ hw, hpw⟩

theorem covered_arr {r : List (Nat × Val)} {ty ety : String} {es : List Val}
    (h : ∀ v ∈ es, covered r v) : covered r (.arr ty ety es) := by
  intro a ha
  rw [addrsOf] at ha
  obtain ⟨p, hp, hpa⟩ := List.mem_map.mp ha
  rw [ptrOccs] at hp
  obtain ⟨v, hv, hpv⟩ := ptrOccsL_mem_rev hp
  subst hpa
  exact h v hv p.2 (by rw [addrsOf]; exact List.mem_map_of_mem _ hpv)

theorem covered_slice {r : List (Nat × Val)} {ty : String} {l : List Val}
    (h : ∀ v ∈ l, covered r v) : covered r (.slice ty (some l)) := by
  intro a ha
  rw [addrsOf] at ha
  obtain ⟨p, hp, hpa⟩ := List.mem_map.mp ha
  rw [ptrOccs] at hp
  obtain ⟨v, hv, hpv⟩ := ptrOccsL_mem_rev hp
  subst hpa
  exact h v hv p.2 (by rw [addrsOf]; exact List.mem_map_of_mem _ hpv)

theorem covered_mp {r : List (Nat × Val)} {ty : String} {es : List (Val × Val)}
    (h : ∀ q ∈ es, covered r q.1 ∧ covered r q.2) : covered r (.mp ty es) := by
  intro a ha
  rw [addrsOf] at ha
  obtain ⟨p, hp, hpa⟩ := List.mem_map.mp ha
  rw [ptrOccs] at hp
  obtain ⟨q, hq, hpq⟩ := ptrOccsM_mem_rev hp
  subst hpa
  rcases hpq with hk | hv
  · exact (h q hq).1 p.2 (by rw [addrsOf]; exact List.mem_map_of_mem _ hk)
  · exact (h q hq).2 p.2 (by rw [addrsOf]; exact List.mem_map_of_mem _ hv)

theorem covered_strct {r : List (Nat × Val)} {ty : String}
    {fs : List (String × Bool × Val × Val)}
    (h : ∀ fld ∈ fs, fld.2.1 = true → covered r fld.2.2.1) :
    covered r (.strct ty fs) := by
  intro a ha
  rw [addrsOf] at ha
  obtain ⟨p, hp, hpa⟩ := List.mem_map.mp ha
  rw [ptrOccs] at hp
  obtain ⟨nm, v, z, hf, hpv⟩ := ptrOccsF_mem_rev hp
  subst hpa
  exact h (nm, true, v, z) hf rfl p.2 (by rw [addrsOf]; exact List.mem_map_of_mem _ hpv)

theorem covered_empty {r : List (Nat × Val)} {v : Val} (h : ptrOccs v = []) :
    covered r v := by
  intro a ha
  rw [addrsOf, h] at ha
  cases ha

/-- Unfolding of `_mapItems` on a cons cell, with the constructor matches
on the copied key and value replaced by `isInvalid` tests. -/
theorem mapItems_cons (go : Val → St → Res × St) (k0 v0 : Val)
    (rest dc : List (Val × Val)) (σ : St) :
    _mapItems go ((k0, v0) :: rest) dc σ =
      match go v0 σ with
      | (.ok item, σ₁) =>
        match go k0 σ₁ with
        | (.ok k, σ₂) =>
          if k.isInvalid then
            (.panicked "reflect: SetMapIndex using zero Value key", σ₂)
          else if item.isInvalid then _mapItems go rest (mapDel dc k) σ₂
          else _mapItems go rest (mapSet dc k item) σ₂
        | (.err e, σ₂) => (.err (.mapKey k0 e), σ₂)
        | (.panicked m, σ₂) => (.panicked m, σ₂)
        | (.fuelOut, σ₂) => (.fuelOut, σ₂)
      | (.err e, σ₁) => (.err (.mapItem k0 e), σ₁)
      | (.panicked m, σ₁) => (.panicked m, σ₁)
      | (.fuelOut, σ₁) => (.fuelOut, σ₁) := by
  rcases h1 : go v0 σ with ⟨r₁, σ₁⟩
  simp only [_mapItems, h1]
  cases r₁ with
  | ok item =>
    rcases h2 : go k0 σ₁ with ⟨r₂, σ₂⟩
    simp only [h2]
    cases r₂ with
    | ok k => cases k <;> cases item <;> simp [Val.isInvalid]
    | err e => rfl
    | panicked m => rfl
    | fuelOut => rfl
  | err e => rfl
  | panicked m => rfl
  | fuelOut => rfl

/-- Unfolding of `mirrorM` on a cons cell, with the constructor match on
the mirrored value replaced by an `isInvalid` test. -/
theorem mirrorM_cons (g : Nat → Option Nat) (k0 v0 : Val)
    (rest dc : List (Val × Val)) :
    mirrorM g ((k0, v0) :: rest) dc =
      if (mirror g v0).isInvalid then mirrorM g rest (mapDel dc (mirror g k0))
      else mirrorM g rest (mapSet dc (mirror g k0) (mirror g v0)) := by
  rw [mirrorM]
  cases hm : mirror g v0 <;> simp [Val.isInvalid]

/-- Unfolding of `_structFields` on an exported field, with the
constructor match on the copied item replaced by an `isInvalid` test. -/
theorem structFields_cons_true (go : Val → St → Res × St) (nm : String)
    (v z : Val) (rest : List (String × Bool × Val × Val)) (σ : St) :
    _structFields go ((nm, true, v, z) :: rest) σ =
      match go v σ with
      | (.ok item, σ₁) =>
        if item.isInvalid then
          (.panicked "reflect: Set using zero Value argument", σ₁)
        else
          match _structFields go rest σ₁ with
          | (.ok fs, σ₂) => (.ok ((nm, true, item, z) :: fs), σ₂)
          | (.err e, σ₂) => (.err e, σ₂)
          | (.panicked m, σ₂) => (.panicked m, σ₂)
          | (.fuelOut, σ₂) => (.fuelOut, σ₂)
      | (.err e, σ₁) => (.err (.structField nm e), σ₁)
      | (.panicked m, σ₁) => (.panicked m, σ₁)
      | (.fuelOut, σ₁) => (.fuelOut, σ₁) := by
  rcases h1 : go v σ with ⟨r₁, σ₁⟩
  simp only [_structFields, h1, if_true]
  cases r₁ with
  | ok item =>
    rcases h2 : _structFields go rest σ₁ with ⟨r₂, σ₂⟩
    simp only [h2]
    cases item <;> simp [Val.isInvalid]
  | err e => rfl
  | panicked m => rfl
  | fuelOut => rfl

/-- Unfolding of `_arrayItems` on a cons cell, with the constructor match
on the copied item replaced by an `isInvalid` test. -/
theorem arrayItems_cons (go : Val → St → Res × St) (v : Val) (rest : List Val)
    (i : Nat) (σ : St) :
    _arrayItems go (v :: rest) i σ =
      match go v σ with
      | (.ok item, σ₁) =>
        if item.isInvalid then
          (.panicked "reflect: Set using zero Value argument", σ₁)
        else
          match _arrayItems go rest (i + 1) σ₁ with
          | (.ok items, σ₂) => (.ok (item :: items), σ₂)
          | (.err e, σ₂) => (.err e, σ₂)
          | (.panicked m, σ₂) => (.panicked m, σ₂)
          | (.fuelOut, σ₂) => (.fuelOut, σ₂)
      | (.err e, σ₁) => (.err (.arrayItem i e), σ₁)
      | (.panicked m, σ₁) => (.panicked m, σ₁)
      | (.fuelOut, σ₁) => (.fuelOut, σ₁) := by
  rcases h1 : go v σ with ⟨r₁, σ₁⟩
  simp only [_arrayItems, h1]
  cases r₁ with
  | ok item =>
    rcases h2 : _arrayItems go rest (i + 1) σ₁ with ⟨r₂, σ₂⟩
    simp only [h2]
    cases item <;> simp [Val.isInvalid]
  | err e => rfl
  | panicked m => rfl
  | fuelOut => rfl

/-- Unfolding of `_pointer` on a non-nil pointer whose address is not yet
registered, with the constructor match on the copied pointee replaced by an
`isInvalid` test. -/
theorem pointer_miss (go : Val → St → Res × St) (ety : String) (a : Nat) (σ : St)
    (hl : σ.reg.lookup a = none) :
    _pointer go (.ptr ety (some a)) σ =
      match go (σ.heap.getD a .invalid)
          ⟨σ.heap ++ [.invalid], (a, .ptr ety (some σ.heap.length)) :: σ.reg, σ.tr⟩ with
      | (.ok item, σ₂) =>
        if item.isInvalid then (.ok (.ptr ety (some σ.heap.length)), σ₂)
        else (.ok (.ptr ety (some σ.heap.length)),
              { σ₂ with heap := σ₂.heap.set σ.heap.length item })
      | (.err e, σ₂) => (.err (.ptrElem e), σ₂)
      | (.panicked m, σ₂) => (.panicked m, σ₂)
      | (.fuelOut, σ₂) => (.fuelOut, σ₂) := by
  rcases h2 : go (σ.heap.getD a .invalid)
      ⟨σ.heap ++ [.invalid], (a, .ptr ety (some σ.heap.length)) :: σ.reg, σ.tr⟩ with ⟨r₂, σ₂⟩
  simp only [_pointer, hl, h2]
  cases r₂ with
  | ok item => cases item <;> simp [Val.isInvalid]
  | err e => rfl
  | panicked m => rfl
  | fuelOut => rfl

/-- Inversion of a successful `_arrayItems` step on a cons cell. -/
theorem arrayItems_cons_inv {go : Val → St → Res × St} {v : Val} {rest : List Val}
    {i : Nat} {σ : St} {r : List Val} {σ' : St}
    (hrun : _arrayItems go (v :: rest) i σ = (.ok r, σ')) :
    ∃ item σ₁ items, go v σ = (.ok item, σ₁) ∧ item ≠ .invalid ∧
      _arrayItems go rest (i + 1) σ₁ = (.ok items, σ') ∧ r = item :: items := by
  rcases h1 : go v σ with ⟨r₁, σ₁⟩
  simp only [_arrayItems, h1] at hrun
  cases r₁ with
  | ok item =>
    rcases h2 : _arrayItems go rest (i + 1) σ₁ with ⟨r₂, σ₂⟩
    cases item <;>
      first
        | cases hrun
        | (simp only [h2] at hrun; cases r₂ <;> cases hrun <;> exact ⟨_, _, _, rfl, fun hc => Val.noConfusion hc, h2, rfl⟩)
  | err e => cases hrun
  | panicked m => cases hrun
  | fuelOut => cases hrun

/-- Inversion of a successful `_structFields` step on an exported field. -/
theorem structFields_true_inv {go : Val → St → Res × St} {nm : String} {v z : Val}
    {rest : List (String × Bool × Val × Val)} {σ : St}
    {r : List (String × Bool × Val × Val)} {σ' : St}
    (hrun : _structFields go ((nm, true, v, z) :: rest) σ = (.ok r, σ')) :
    ∃ item σ₁ fs, go v σ = (.ok item, σ₁) ∧ item ≠ .invalid ∧
      _structFields go rest σ₁ = (.ok fs, σ') ∧ r = (nm, true, item, z) :: fs := by
  rcases h1 : go v σ with ⟨r₁, σ₁⟩
  simp only [_structFields, h1, if_true] at hrun
  cases r₁ with
  | ok item =>
    rcases h2 : _structFields go rest σ₁ with ⟨r₂, σ₂⟩
    cases item <;>
      first
        | cases hrun
        | (simp only [h2] at hrun; cases r₂ <;> cases hrun <;> exact ⟨_, _, _, rfl, fun hc => Val.noConfusion hc, h2, rfl⟩)
  | err e => cases hrun
  | panicked m => cases hrun
  | fuelOut => cases hrun

/-- Inversion of a successful `_structFields` step on a non-exported
field: the source value is skipped and the declared zero is kept. -/
theorem structFields_false_inv {go : Val → St → Res × St} {nm : String} {v z : Val}
    {rest : List (String × Bool × Val × Val)} {σ : St}
    {r : List (String × Bool × Val × Val)} {σ' : St}
    (hrun : _structFields go ((nm, false, v, z) :: rest) σ = (.ok r, σ')) :
    ∃ fs, _structFields go rest σ = (.ok fs, σ') ∧ r = (nm, false, z, z) :: fs := by
  rcases h2 : _structFields go rest σ with ⟨r₂, σ₂⟩
  simp only [_structFields, h2, if_false] at hrun
  cases r₂ <;> cases hrun
  exact ⟨_, rfl, rfl⟩

/-- Inversion of a successful `_mapItems` step on a cons cell: the value is
copied first, then the key; an invalid copied key would have panicked, and
an invalid copied value deletes the key from the copy. -/
theorem mapItems_cons_inv {go : Val → St → Res × St} {k0 v0 : Val}
    {rest dc : List (Val × Val)} {σ : St} {r : List (Val × Val)} {σ' : St}
    (hrun : _mapItems go ((k0, v0) :: rest) dc σ = (.ok r, σ')) :
    ∃ item σ₁ k σ₂, go v0 σ = (.ok item, σ₁) ∧ go k0 σ₁ = (.ok k, σ₂) ∧
      k ≠ .invalid ∧
      ((item = .invalid ∧ _mapItems go rest (mapDel dc k) σ₂ = (.ok r, σ')) ∨
       (item ≠ .invalid ∧ _mapItems go rest (mapSet dc k item) σ₂ = (.ok r, σ'))) := by
  rcases h1 : go v0 σ with ⟨r₁, σ₁⟩
  simp only [_mapItems, h1] at hrun
  cases r₁ with
  | ok item =>
    rcases h2 : go k0 σ₁ with ⟨r₂, σ₂⟩
    simp only [h2] at hrun
    cases r₂ with
    | ok k =>
      cases k <;>
        first
          | cases hrun
          | (cases item <;> first | exact ⟨_, _, _, _, rfl, h2, fun hc => Val.noConfusion hc, Or.inl ⟨rfl, hrun⟩⟩ | exact ⟨_, _, _, _, rfl, h2, fun hc => Val.noConfusion hc, Or.inr ⟨fun hc => Val.noConfusion hc, hrun⟩⟩)
    | err e => cases hrun
    | panicked m => cases hrun
    | fuelOut => cases hrun
  | err e => cases hrun
  | panicked m => cases hrun
  | fuelOut => cases hrun

/-- Inversion of a successful `_pointer` step on a nil pointer. -/
theorem pointer_nil_inv {go : Val → St → Res × St} {ety : String} {σ : St}
    {v' : Val} {σ' : St}
    (hrun : _pointer go (.ptr ety none) σ = (.ok v', σ')) :
    v' = .ptr ety none ∧ σ' = σ := by
  cases hrun
  exact ⟨rfl, rfl⟩

/-- Inversion of a successful `_pointer` step on a registered address:
the engine returns the previously produced copy pointer unchanged. -/
theorem pointer_hit_inv {go : Val → St → Res × St} {ety : String} {a : Nat}
    {σ : St} {dc : Val} {v' : Val} {σ' : St}
    (hl : σ.reg.lookup a = some dc)
    (hrun : _pointer go (.ptr ety (some a)) σ = (.ok v', σ')) :
    v' = dc ∧ σ' = σ := by
  simp only [_pointer, hl] at hrun
  cases hrun
  exact ⟨rfl, rfl⟩

/-- Inversion of a successful `_pointer` step on an unregistered address:
a fresh blank cell is allocated and registered, the pointee is copied
through the engine, and the cell is written unless the copy is invalid. -/
theorem pointer_miss_inv {go : Val → St → Res × St} {ety : String} {a : Nat}
    {σ : St} {v' : Val} {σ' : St}
    (hl : σ.reg.lookup a = none)
    (hrun : _pointer go (.ptr ety (some a)) σ = (.ok v', σ')) :
    v' = .ptr ety (some σ.heap.length) ∧
    ∃ item σ₂, go (σ.heap.getD a .invalid)
        ⟨σ.heap ++ [.invalid], (a, .ptr ety (some σ.heap.length)) :: σ.reg, σ.tr⟩ =
        (.ok item, σ₂) ∧
      ((item = .invalid ∧ σ' = σ₂) ∨
       (item ≠ .invalid ∧ σ' = { σ₂ with heap := σ₂.heap.set σ.heap.length item })) := by
  simp only [_pointer, hl] at hrun
  rcases h2 : go (σ.heap.getD a .invalid)
      ⟨σ.heap ++ [.invalid], (a, .ptr ety (some σ.heap.length)) :: σ.reg, σ.tr⟩ with ⟨r₂, σ₂⟩
  simp only [h2] at hrun
  cases r₂ with
  | ok item =>
    cases item <;> cases hrun <;>
      first
        | exact ⟨rfl, _, _, h2, Or.inl ⟨rfl, rfl⟩⟩
        | exact ⟨rfl, _, _, h2, Or.inr ⟨fun hc => Val.noConfusion hc, rfl⟩⟩
  | err e => cases hrun
  | panicked m => cases hrun
  | fuelOut => cases hrun

/-- Hook-free slice element loop: on success the invariant is maintained
and the produced elements are the mirrors of the sources under the final
registry. -/
theorem sliceItems_post (E : Nat → String) (H : List Val) (P : List Nat)
    (go : Val → St → Res × St)
    (hgo : ∀ w σw w' σw', occsOk E H.length w → namedArrFree w = true →
      regWfE E H P σw → go w σw = (.ok w', σw') → okPost E H P σw w w' σw') :
    ∀ (l : List Val) (i : Nat) (σ : St),
      (∀ v ∈ l, occsOk E H.length v ∧ namedArrFree v = true) →
      regWfE E H P σ →
      ∀ r σ', _sliceItems go l i σ = (.ok r, σ') →
        regWfE E H P σ' ∧ regExt σ.reg σ'.reg ∧ σ.heap.length ≤ σ'.heap.length ∧
        r = mirrorL (lookupAddr σ'.reg) l ∧ ∀ v ∈ l, covered σ'.reg v := by
  intro l
  induction l with
  | nil =>
    intro i σ hl hσ r σ' hrun
    cases hrun
    exact ⟨hσ, regExt_refl _, le_refl _, by rw [mirrorL],
      fun v hv => absurd hv (List.not_mem_nil v)⟩
  | cons v rest ih =>
    intro i σ hl hσ r σ' hrun
    rcases h1 : go v σ with ⟨r₁, σ₁⟩
    simp only [_sliceItems, h1] at hrun
    cases r₁ with
    | ok item =>
      obtain ⟨hσ₁, hext1, hlen1, hitem, hcov1⟩ :=
        hgo v σ item σ₁ (hl v (List.mem_cons_self _ _)).1
          (hl v (List.mem_cons_self _ _)).2 hσ h1
      rcases h2 : _sliceItems go rest (i + 1) σ₁ with ⟨r₂, σ₂⟩
      simp only [h2] at hrun
      cases r₂ with
      | ok items =>
        obtain ⟨hσ₂, hext2, hlen2, hitems, hcov2⟩ :=
          ih (i + 1) σ₁ (fun w hw => hl w (List.mem_cons_of_mem _ hw)) hσ₁ items σ₂ h2
        cases hrun
        refine ⟨hσ₂, regExt_trans hext1 hext2, le_trans hlen1 hlen2, ?_, ?_⟩
        · rw [mirrorL, ← hitems, hitem, mirror_ext hext2 hcov1]
        · intro w hw
          rcases List.mem_cons.mp hw with rfl | hw'
          · exact covered_ext hext2 hcov1
          · exact hcov2 w hw'
      | err e => cases hrun
      | panicked m => cases hrun
      | fuelOut => cases hrun
    | err e => cases hrun
    | panicked m => cases hrun
    | fuelOut => cases hrun

/-- Hook-free array element loop: as for slices (an invalid element would
have panicked instead). -/
theorem arrayItems_post (E : Nat → String) (H : List Val) (P : List Nat)
    (go : Val → St → Res × St)
    (hgo : ∀ w σw w' σw', occsOk E H.length w → namedArrFree w = true →
      regWfE E H P σw → go w σw = (.ok w', σw') → okPost E H P σw w w' σw') :
    ∀ (l : List Val) (i : Nat) (σ : St),
      (∀ v ∈ l, occsOk E H.length v ∧ namedArrFree v = true) →
      regWfE E H P σ →
      ∀ r σ', _arrayItems go l i σ = (.ok r, σ') →
        regWfE E H P σ' ∧ regExt σ.reg σ'.reg ∧ σ.heap.length ≤ σ'.heap.length ∧
        r = mirrorL (lookupAddr σ'.reg) l ∧ ∀ v ∈ l, covered σ'.reg v := by
  intro l
  induction l with
  | nil =>
    intro i σ hl hσ r σ' hrun
    cases hrun
    exact ⟨hσ, regExt_refl _, le_refl _, by rw [mirrorL],
      fun v hv => absurd hv (List.not_mem_nil v)⟩
  | cons v rest ih =>
    intro i σ hl hσ r σ' hrun
    obtain ⟨item, σ₁, items, h1, hni, h2, hr⟩ := arrayItems_cons_inv hrun
    obtain ⟨hσ₁, hext1, hlen1, hitem, hcov1⟩ :=
      hgo v σ item σ₁ (hl v (List.mem_cons_self _ _)).1
        (hl v (List.mem_cons_self _ _)).2 hσ h1
    obtain ⟨hσ₂, hext2, hlen2, hitems, hcov2⟩ :=
      ih (i + 1) σ₁ (fun w hw => hl w (List.mem_cons_of_mem _ hw)) hσ₁ items σ' h2
    subst hr
    refine ⟨hσ₂, regExt_trans hext1 hext2, le_trans hlen1 hlen2, ?_, ?_⟩
    · rw [mirrorL, ← hitems, hitem, mirror_ext hext2 hcov1]
    · intro w hw
      rcases List.mem_cons.mp hw with rfl | hw'
      · exact covered_ext hext2 hcov1
      · exact hcov2 w hw'

/-- Hook-free record field loop: exported fields are mirrored, unexported
fields keep their declared zero, matching `mirrorF`. -/
theorem structFields_post (E : Nat → String) (H : List Val) (P : List Nat)
    (go : Val → St → Res × St)
    (hgo : ∀ w σw w' σw', occsOk E H.length w → namedArrFree w = true →
      regWfE E H P σw → go w σw = (.ok w', σw') → okPost E H P σw w w' σw') :
    ∀ (l : List (String × Bool × Val × Val)),
      (∀ fld ∈ l, fld.2.1 = true →
        occsOk E H.length fld.2.2.1 ∧ namedArrFree fld.2.2.1 = true) →
      ∀ (σ : St), regWfE E H P σ →
      ∀ r σ', _structFields go l σ = (.ok r, σ') →
        regWfE E H P σ' ∧ regExt σ.reg σ'.reg ∧ σ.heap.length ≤ σ'.heap.length ∧
        r = mirrorF (lookupAddr σ'.reg) l ∧
        ∀ fld ∈ l, fld.2.1 = true → covered σ'.reg fld.2.2.1 := by
  intro l
  induction l with
  | nil =>
    intro hl σ hσ r σ' hrun
    cases hrun
    exact ⟨hσ, regExt_refl _, le_refl _, by rw [mirrorF],
      fun fld hf => absurd hf (List.not_mem_nil fld)⟩
  | cons fld rest ih =>
    rcases fld with ⟨nm, ex, v, z⟩
    intro hl σ hσ r σ' hrun
    cases ex with
    | true =>
      obtain ⟨item, σ₁, fs, h1, hni, h2, hr⟩ := structFields_true_inv hrun
      obtain ⟨hσ₁, hext1, hlen1, hitem, hcov1⟩ :=
        hgo v σ item σ₁ (hl (nm, true, v, z) (List.mem_cons_self _ _) rfl).1
          (hl (nm, true, v, z) (List.mem_cons_self _ _) rfl).2 hσ h1
      obtain ⟨hσ₂, hext2, hlen2, hfs, hcovf⟩ :=
        ih (fun f hf hx => hl f (List.mem_cons_of_mem _ hf) hx) σ₁ hσ₁ fs σ' h2
      subst hr
      have hmv : item = mirror (lookupAddr σ'.reg) v := by
        rw [hitem]
        exact (mirror_ext hext2 hcov1).symm
      refine ⟨hσ₂, regExt_trans hext1 hext2, le_trans hlen1 hlen2, ?_, ?_⟩
      · rw [mirrorF, ← hfs, if_pos rfl, ← hmv]
      · rintro f hf hx
        rcases List.mem_cons.mp hf with rfl | hf'
        · exact covered_ext hext2 hcov1
        · exact hcovf f hf' hx
    | false =>
      obtain ⟨fs, h2, hr⟩ := structFields_false_inv hrun
      obtain ⟨hσ₂, hext2, hlen2, hfs, hcovf⟩ :=
        ih (fun f hf hx => hl f (List.mem_cons_of_mem _ hf) hx) σ hσ fs σ' h2
      subst hr
      refine ⟨hσ₂, hext2, hlen2, ?_, ?_⟩
      · rw [mirrorF, ← hfs, if_neg Bool.false_ne_true]
      · rintro f hf hx
        rcases List.mem_cons.mp hf with rfl | hf'
        · cases hx
        · exact hcovf f hf' hx

/-- Hook-free map entry loop: the copy accumulates exactly the
`mirrorM` fold (value first, then key; invalid copied values delete). -/
theorem mapItems_post (E : Nat → String) (H : List Val) (P : List Nat)
    (go : Val → St → Res × St)
    (hgo : ∀ w σw w' σw', occsOk E H.length w → namedArrFree w = true →
      regWfE E H P σw → go w σw = (.ok w', σw') → okPost E H P σw w w' σw') :
    ∀ (l : List (Val × Val)),
      (∀ q ∈ l, (occsOk E H.length (Prod.fst q) ∧ namedArrFree (Prod.fst q) = true) ∧
                (occsOk E H.length (Prod.snd q) ∧ namedArrFree (Prod.snd q) = true)) →
      ∀ (dc : List (Val × Val)) (σ : St), regWfE E H P σ →
      ∀ r σ', _mapItems go l dc σ = (.ok r, σ') →
        regWfE E H P σ' ∧ regExt σ.reg σ'.reg ∧ σ.heap.length ≤ σ'.heap.length ∧
        r = mirrorM (lookupAddr σ'.reg) l dc ∧
        ∀ q ∈ l, covered σ'.reg (Prod.fst q) ∧ covered σ'.reg (Prod.snd q) := by
  intro l
  induction l with
  | nil =>
    intro hl dc σ hσ r σ' hrun
    cases hrun
    exact ⟨hσ, regExt_refl _, le_refl _, by rw [mirrorM],
      fun q hq => absurd hq (List.not_mem_nil q)⟩
  | cons q rest ih =>
    rcases q with ⟨k0, v0⟩
    intro hl dc σ hσ r σ' hrun
    obtain ⟨item, σ₁, k, σ₂, h1, h2, hkni, hcase⟩ := mapItems_cons_inv hrun
    obtain ⟨hσ₁, hext1, hlen1, hitem, hcov1⟩ :=
      hgo v0 σ item σ₁ (hl (k0, v0) (List.mem_cons_self _ _)).2.1
        (hl (k0, v0) (List.mem_cons_self _ _)).2.2 hσ h1
    obtain ⟨hσ₂, hext2, hlen2, hk, hcov2⟩ :=
      hgo k0 σ₁ k σ₂ (hl (k0, v0) (List.mem_cons_self _ _)).1.1
        (hl (k0, v0) (List.mem_cons_self _ _)).1.2 hσ₁ h2
    have hcov1' : covered σ₂.reg v0 := covered_ext hext2 hcov1
    have hitem2 : item = mirror (lookupAddr σ₂.reg) v0 := by
      rw [hitem]
      exact (mirror_ext hext2 hcov1).symm
    rcases hcase with ⟨hinv, hrec⟩ | ⟨hninv, hrec⟩
    · obtain ⟨hσ₃, hext3, hlen3, hr, hcovr⟩ :=
        ih (fun p hp => hl p (List.mem_cons_of_mem _ hp)) (mapDel dc k) σ₂ hσ₂ r σ' hrec
      have hv' : mirror (lookupAddr σ'.reg) v0 = .invalid := by
        rw [mirror_ext hext3 hcov1', ← hitem2]
        exact hinv
      have hk' : mirror (lookupAddr σ'.reg) k0 = k := by
        rw [mirror_ext hext3 hcov2, ← hk]
      refine ⟨hσ₃, regExt_trans hext1 (regExt_trans hext2 hext3),
        le_trans hlen1 (le_trans hlen2 hlen3), ?_, ?_⟩
      · rw [mirrorM_cons, hv', hk',
          if_pos (show Val.isInvalid .invalid = true from rfl)]
        exact hr
      · intro p hp
        rcases List.mem_cons.mp hp with rfl | hp'
        · exact ⟨covered_ext hext3 hcov2, covered_ext hext3 hcov1'⟩
        · exact hcovr p hp'
    · obtain ⟨hσ₃, hext3, hlen3, hr, hcovr⟩ :=
        ih (fun p hp => hl p (List.mem_cons_of_mem _ hp)) (mapSet dc k item) σ₂ hσ₂ r σ' hrec
      have hv' : mirror (lookupAddr σ'.reg) v0 = item := by
        rw [mirror_ext hext3 hcov1', ← hitem2]
      have hk' : mirror (lookupAddr σ'.reg) k0 = k := by
        rw [mirror_ext hext3 hcov2, ← hk]
      refine ⟨hσ₃, regExt_trans hext1 (regExt_trans hext2 hext3),
        le_trans hlen1 (le_trans hlen2 hlen3), ?_, ?_⟩
      · rw [mirrorM_cons, hv', hk', (isInvalid_false_iff item).mpr hninv,
          if_neg Bool.false_ne_true]
        exact hr
      · intro p hp
        rcases List.mem_cons.mp hp with rfl | hp'
        · exact ⟨covered_ext hext3 hcov2, covered_ext hext3 hcov1'⟩
        · exact hcovr p hp'

theorem pairwise_targD_ne {r : List (Nat × Val)}
    (hp : r.Pairwise (fun e e' => targD e ≠ targD e'))
    {e e' : Nat × Val} (he : e ∈ r) (he' : e' ∈ r) (hne : e ≠ e') :
    targD e ≠ targD e' := by
  induction r with
  | nil => cases he
  | cons e0 rest ih =>
    have hp' := List.pairwise_cons.mp hp
    rcases List.mem_cons.mp he with rfl | h1
    · rcases List.mem_cons.mp he' with rfl | h2
      · exact absurd rfl hne
      · exact hp'.1 e' h2
    · rcases List.mem_cons.mp he' with rfl | h2
      · intro hc
        exact hp'.1 e h1 hc.symm
      · exact ih hp'.2 h1 h2

/-- Hook-free pointer handler: a nil or registered pointer is returned
directly; a fresh pointer allocates and registers a blank cell, copies the
pointee with the address pending, then completes the cell, maintaining the
invariant. -/
theorem pointer_post (E : Nat → String) (H : List Val) (P : List Nat)
    (go : Val → St → Res × St)
    (hH : ∀ c ∈ H, occsOk E H.length c ∧ namedArrFree c = true)
    (hgo : ∀ w P' σw w' σw', occsOk E H.length w → namedArrFree w = true →
      regWfE E H P' σw → go w σw = (.ok w', σw') → okPost E H P' σw w w' σw')
    (ety : String) (a : Nat) (σ : St)
    (hocc : occsOk E H.length (.ptr ety (some a)))
    (hσ : regWfE E H P σ)
    (v' : Val) (σ' : St)
    (hrun : _pointer go (.ptr ety (some a)) σ = (.ok v', σ')) :
    okPost E H P σ (.ptr ety (some a)) v' σ' := by
  have hpa := hocc (ety, a) (by rw [ptrOccs]; exact List.mem_singleton.mpr rfl)
  have hEa : ety = E a := hpa.1
  have haH : a < H.length := hpa.2
  have hbH : H.length ≤ σ.heap.length := take_prefix_len hσ.1
  rcases hl : σ.reg.lookup a with _ | dc
  · -- fresh address
    obtain ⟨hv, item, σ₂, h2, hcase⟩ := pointer_miss_inv hl hrun
    subst hv
    have hanP : a ∉ P := by
      intro hp
      have hs := hσ.2.2.2.1 a hp
      rw [hl] at hs
      cases hs
    have hext01 : regExt σ.reg ((a, Val.ptr ety (some σ.heap.length)) :: σ.reg) :=
      regExt_cons hl
    have hσ₁ : regWfE E H (a :: P)
        ⟨σ.heap ++ [.invalid], (a, .ptr ety (some σ.heap.length)) :: σ.reg, σ.tr⟩ := by
      refine ⟨?_, ?_, ?_, ?_, ?_⟩
      · show (σ.heap ++ [Val.invalid]).take H.length = H
        rw [take_append_left _ _ _ hbH]
        exact hσ.1
      · refine List.pairwise_cons.mpr ⟨?_, hσ.2.1⟩
        intro e he heq
        have heq' : a = e.1 := heq
        have hmm : (a, e.2) ∈ σ.reg := by
          rw [heq']
          exact he
        have hs := lookup_isSome_of_mem hmm
        rw [hl] at hs
        cases hs
      · refine List.pairwise_cons.mpr ⟨?_, hσ.2.2.1⟩
        intro e he heq
        obtain ⟨be, hbe, _, _, hbu', _, _⟩ := hσ.2.2.2.2 e he
        have htg : targD e = be := by simp [targD, hbe]
        have htg0 : targD (a, Val.ptr ety (some σ.heap.length)) = σ.heap.length := rfl
        rw [htg0, htg] at heq
        omega
      · intro p hp
        rcases List.mem_cons.mp hp with rfl | hp'
        · rw [lookup_cons_self]
          rfl
        · have hs := hσ.2.2.2.1 p hp'
          obtain ⟨w, hw⟩ := Option.isSome_iff_exists.mp hs
          rw [hext01 p w hw]
          rfl
      · intro e he
        rcases List.mem_cons.mp he with rfl | he'
        · refine ⟨σ.heap.length, ?_, haH, hbH, ?_, ?_, ?_⟩
          · show Val.ptr ety (some σ.heap.length) = Val.ptr (E a) (some σ.heap.length)
            rw [hEa]
          · show σ.heap.length < (σ.heap ++ [Val.invalid]).length
            simp
          · intro _
            exact getD_append_self _ _ _
          · intro hna
            exact absurd (List.mem_cons_self a P) hna
        · obtain ⟨be, hbe, hae, hble', hbu', hpend', hcomp'⟩ := hσ.2.2.2.2 e he'
          refine ⟨be, hbe, hae, hble', ?_, ?_, ?_⟩
          · show be < (σ.heap ++ [Val.invalid]).length
            simp
            omega
          · intro hpe
            rcases List.mem_cons.mp hpe with heq | hpe'
            · exfalso
              have hmm : (a, e.2) ∈ σ.reg := by
                rw [← heq]
                exact he'
              have hs := lookup_isSome_of_mem hmm
              rw [hl] at hs
              cases hs
            · show (σ.heap ++ [Val.invalid]).getD be .invalid = .invalid
              rw [getD_append_lt hbu']
              exact hpend' hpe'
          · intro hne
            have hneP : e.1 ∉ P := fun hp => hne (List.mem_cons_of_mem _ hp)
            obtain ⟨hcell, hcov⟩ := hcomp' hneP
            constructor
            · show (σ.heap ++ [Val.invalid]).getD be .invalid =
                mirror (lookupAddr ((a, Val.ptr ety (some σ.heap.length)) :: σ.reg))
                  (H.getD e.1 .invalid)
              rw [getD_append_lt hbu', hcell]
              exact (mirror_ext hext01 hcov).symm
            · exact covered_ext hext01 hcov
    have hwo : occsOk E H.length (σ.heap.getD a .invalid) := by
      rw [getD_pref hσ.1 haH]
      exact (hH (H.getD a .invalid) (getD_mem haH _)).1
    have hwn : namedArrFree (σ.heap.getD a .invalid) = true := by
      rw [getD_pref hσ.1 haH]
      exact (hH (H.getD a .invalid) (getD_mem haH _)).2
    obtain ⟨hσ₂, hext2, hlen2, hitem, hcov2⟩ :=
      hgo (σ.heap.getD a .invalid) (a :: P) _ item σ₂ hwo hwn hσ₁ h2
    rw [getD_pref hσ.1 haH] at hitem hcov2
    have hl1 : List.lookup a ((a, Val.ptr ety (some σ.heap.length)) :: σ.reg) =
        some (Val.ptr ety (some σ.heap.length)) := lookup_cons_self _ _ _
    have hl2 : σ₂.reg.lookup a = some (Val.ptr ety (some σ.heap.length)) :=
      hext2 a _ hl1
    have hga2 : lookupAddr σ₂.reg a = some σ.heap.length := by
      rw [lookupAddr, hl2]
    have hmem2 := lookup_mem hl2
    obtain ⟨b2, hb2, _, hble2, hblt2, hpend2, _⟩ := hσ₂.2.2.2.2 _ hmem2
    have hb2' : Val.ptr ety (some σ.heap.length) = Val.ptr (E a) (some b2) := hb2
    injection hb2' with hety2 hsome2
    injection hsome2 with hbeq
    have hb2lt : σ.heap.length < σ₂.heap.length := by
      rw [hbeq]
      exact hblt2
    have hlen12 : σ.heap.length + 1 ≤ σ₂.heap.length := by
      have h := hlen2
      simp at h
      exact h
    have hmir : (Val.ptr ety (some σ.heap.length)) =
        mirror (lookupAddr σ₂.reg) (.ptr ety (some a)) := by
      rw [mirror, hga2]
      rfl
    have hcovp : covered σ₂.reg (.ptr ety (some a)) := by
      intro a' ha'
      rw [addrsOf, ptrOccs] at ha'
      simp at ha'
      subst ha'
      rw [hga2]
      rfl
    rcases hcase with ⟨hinv, hs⟩ | ⟨hninv, hs⟩
    · rw [hs]
      refine ⟨?_, regExt_trans hext01 hext2, by omega, hmir, hcovp⟩
      obtain ⟨ht2, hk2, htg2, hp2, he2⟩ := hσ₂
      refine ⟨ht2, hk2, htg2, fun p hp => hp2 p (List.mem_cons_of_mem _ hp), ?_⟩
      intro e he
      obtain ⟨be, hbe, hae, hble', hblt', hpend', hcomp'⟩ := he2 e he
      refine ⟨be, hbe, hae, hble', hblt',
        fun hpe => hpend' (List.mem_cons_of_mem _ hpe), ?_⟩
      intro hne
      by_cases hea : e.1 = a
      · have hee : e = (a, Val.ptr ety (some σ.heap.length)) :=
          mem_key_unique hk2 hmem2 e he hea
        subst hee
        have hbe' : Val.ptr ety (some σ.heap.length) = Val.ptr (E a) (some be) := hbe
        injection hbe' with hx1 hsome3
        injection hsome3 with hbeq3
        constructor
        · show σ₂.heap.getD be .invalid =
            mirror (lookupAddr σ₂.reg) (H.getD a .invalid)
          have hcell := hpend2 (List.mem_cons_self a P)
          rw [← hbeq] at hcell
          rw [← hbeq3, hcell, ← hitem, hinv]
        · exact hcov2
      · have hne2 : e.1 ∉ a :: P := by
          intro hmm
          rcases List.mem_cons.mp hmm with h | h
          · exact hea h
          · exact hne h
        exact hcomp' hne2
    · rw [hs]
      refine ⟨?_, regExt_trans hext01 hext2, ?_, hmir, hcovp⟩
      · obtain ⟨ht2, hk2, htg2, hp2, he2⟩ := hσ₂
        refine ⟨?_, hk2, htg2, fun p hp => hp2 p (List.mem_cons_of_mem _ hp), ?_⟩
        · show (σ₂.heap.set σ.heap.length item).take H.length = H
          rw [take_set_of_le _ _ _ _ hbH]
          exact ht2
        · intro e he
          obtain ⟨be, hbe, hae, hble', hblt', hpend', hcomp'⟩ := he2 e he
          refine ⟨be, hbe, hae, hble', ?_, ?_, ?_⟩
          · show be < (σ₂.heap.set σ.heap.length item).length
            simpa using hblt'
          · intro hpe
            have hea : e.1 ≠ a := by
              intro hcontra
              rw [hcontra] at hpe
              exact hanP hpe
            have hnee : e ≠ (a, Val.ptr ety (some σ.heap.length)) := by
              intro hc
              rw [hc] at hea
              exact hea rfl
            have htgne := pairwise_targD_ne htg2 he hmem2 hnee
            have htge : targD e = be := by simp [targD, hbe]
            have hbene : σ.heap.length ≠ be := by
              intro hc
              apply htgne
              rw [htge, ← hc]
              rfl
            show (σ₂.heap.set σ.heap.length item).getD be .invalid = .invalid
            rw [getD_set_ne hbene]
            exact hpend' (List.mem_cons_of_mem _ hpe)
          · intro hne
            by_cases hea : e.1 = a
            · have hee : e = (a, Val.ptr ety (some σ.heap.length)) :=
                mem_key_unique hk2 hmem2 e he hea
              subst hee
              have hbe' : Val.ptr ety (some σ.heap.length) = Val.ptr (E a) (some be) := hbe
              injection hbe' with hx1 hsome3
              injection hsome3 with hbeq3
              constructor
              · show (σ₂.heap.set σ.heap.length item).getD be .invalid =
                  mirror (lookupAddr σ₂.reg) (H.getD a .invalid)
                rw [← hbeq3, getD_set_self hb2lt]
                exact hitem
              · exact hcov2
            · have hne2 : e.1 ∉ a :: P := by
                intro hmm
                rcases List.mem_cons.mp hmm with h | h
                · exact hea h
                · exact hne h
              obtain ⟨hcell, hcov⟩ := hcomp' hne2
              have hnee : e ≠ (a, Val.ptr ety (some σ.heap.length)) := by
                intro hc
                rw [hc] at hea
                exact hea rfl
              have htgne := pairwise_targD_ne htg2 he hmem2 hnee
              have htge : targD e = be := by simp [targD, hbe]
              have hbene : σ.heap.length ≠ be := by
                intro hc
                apply htgne
                rw [htge, ← hc]
                rfl
              constructor
              · show (σ₂.heap.set σ.heap.length item).getD be .invalid =
                  mirror (lookupAddr σ₂.reg) (H.getD e.1 .invalid)
                rw [getD_set_ne hbene]
                exact hcell
              · exact hcov
      · show σ.heap.length ≤ (σ₂.heap.set σ.heap.length item).length
        simp
        omega
  · -- registered address
    obtain ⟨hv, hs⟩ := pointer_hit_inv hl hrun
    rw [hv, hs]
    obtain ⟨b, hb, _, _, _, _, _⟩ := hσ.2.2.2.2 (a, dc) (lookup_mem hl)
    have hb' : dc = Val.ptr (E a) (some b) := hb
    have hga : lookupAddr σ.reg a = some b := by
      rw [lookupAddr, hl, hb']
    refine ⟨hσ, regExt_refl _, le_refl _, ?_, ?_⟩
    · rw [mirror, hga, hb', ← hEa]
      rfl
    · intro a' ha'
      rw [addrsOf, ptrOccs] at ha'
      simp at ha'
      subst ha'
      rw [hga]
      rfl

/-- Master mirror theorem for hook-free runs: whenever the engine
succeeds on a well-formed value, the copy is the `mirror` of the input
under the final registry, the registry invariant is maintained, and all
traversed addresses are registered. -/
theorem anything_mirror (E : Nat → String) (H : List Val)
    (hH : ∀ c ∈ H, occsOk E H.length c ∧ namedArrFree c = true) :
    ∀ (fuel : Nat) (v : Val) (P : List Nat) (σ : St),
      occsOk E H.length v → namedArrFree v = true → regWfE E H P σ →
      ∀ v' σ', _anything noHooks fuel v σ = (.ok v', σ') →
        okPost E H P σ v v' σ' := by
  intro fuel
  induction fuel with
  | zero =>
    intro v P σ _ _ _ v' σ' hrun
    rw [anything_zero] at hrun
    cases hrun
  | succ f ih =>
    intro v P σ hocc hnaf hσ v' σ' hrun
    cases v with
    | invalid =>
      rw [anything_invalid] at hrun
      cases hrun
      exact ⟨hσ, regExt_refl _, le_refl _, by rw [mirror],
        covered_empty (by rw [ptrOccs])⟩
    | atom ty d =>
      rw [anything_atom, andMask_noHooks] at hrun
      cases hrun
      exact ⟨hσ, regExt_refl _, le_refl _, by rw [mirror],
        covered_empty (by rw [ptrOccs])⟩
    | func =>
      rw [anything_func] at hrun
      cases hrun
    | chan =>
      rw [anything_chan] at hrun
      cases hrun
    | unsafeptr =>
      rw [anything_unsafeptr] at hrun
      cases hrun
    | arr ty ety es =>
      rw [anything_arr, andMask_noHooks] at hrun
      obtain ⟨hty, hmem⟩ := naf_arr hnaf
      subst hty
      rcases h1 : _arrayItems (fun w σw => _anything noHooks f w σw) es 0 σ with ⟨r₁, σ₁⟩
      simp only [_array, h1] at hrun
      cases r₁ with
      | ok items =>
        obtain ⟨hσ', hext, hlen, hitems, hcov⟩ :=
          arrayItems_post E H P _
            (fun w σw w' σw' ho hn hr hrune => ih w P σw ho hn hr w' σw' hrune)
            es 0 σ (fun w hw => ⟨occsOk_arr hocc w hw, hmem w hw⟩) hσ items σ₁ h1
        cases hrun
        refine ⟨hσ', hext, hlen, ?_, covered_arr hcov⟩
        rw [mirror, hitems]
      | err e => cases hrun
      | panicked m => cases hrun
      | fuelOut => cases hrun
    | slice ty o =>
      rw [anything_slice, andMask_noHooks] at hrun
      cases o with
      | none =>
        cases hrun
        exact ⟨hσ, regExt_refl _, le_refl _, by rw [mirror],
          covered_empty (by rw [ptrOccs])⟩
      | some l =>
        rcases h1 : _sliceItems (fun w σw => _anything noHooks f w σw) l 0 σ with ⟨r₁, σ₁⟩
        simp only [_slice, Option.getD_some, h1] at hrun
        cases r₁ with
        | ok items =>
          obtain ⟨hσ', hext, hlen, hitems, hcov⟩ :=
            sliceItems_post E H P _
              (fun w σw w' σw' ho hn hr hrune => ih w P σw ho hn hr w' σw' hrune)
              l 0 σ (fun w hw => ⟨occsOk_slice hocc w hw, naf_slice hnaf w hw⟩)
              hσ items σ₁ h1
          cases hrun
          refine ⟨hσ', hext, hlen, ?_, covered_slice hcov⟩
          rw [mirror, hitems]
        | err e => cases hrun
        | panicked m => cases hrun
        | fuelOut => cases hrun
    | mp ty es =>
      rw [anything_mp, andMask_noHooks] at hrun
      rcases h1 : _mapItems (fun w σw => _anything noHooks f w σw) es [] σ with ⟨r₁, σ₁⟩
      simp only [_map, h1] at hrun
      cases r₁ with
      | ok dcm =>
        obtain ⟨hσ', hext, hlen, hdc, hcov⟩ :=
          mapItems_post E H P _
            (fun w σw w' σw' ho hn hr hrune => ih w P σw ho hn hr w' σw' hrune)
            es (fun q hq => ⟨⟨(occsOk_mp hocc q hq).1, (naf_mp hnaf q hq).1⟩,
                            ⟨(occsOk_mp hocc q hq).2, (naf_mp hnaf q hq).2⟩⟩)
            [] σ hσ dcm σ₁ h1
        cases hrun
        refine ⟨hσ', hext, hlen, ?_, covered_mp hcov⟩
        rw [mirror, hdc]
      | err e => cases hrun
      | panicked m => cases hrun
      | fuelOut => cases hrun
    | strct ty fs =>
      rw [anything_strct, andMask_noHooks] at hrun
      rcases h1 : _structFields (fun w σw => _anything noHooks f w σw) fs σ with ⟨r₁, σ₁⟩
      simp only [_struct, h1] at hrun
      cases r₁ with
      | ok fs' =>
        obtain ⟨hσ', hext, hlen, hfs, hcov⟩ :=
          structFields_post E H P _
            (fun w σw w' σw' ho hn hr hrune => ih w P σw ho hn hr w' σw' hrune)
            fs (fun fld hf hx => ⟨occsOk_strct hocc fld hf hx, naf_strct hnaf fld hf hx⟩)
            σ hσ fs' σ₁ h1
        cases hrun
        refine ⟨hσ', hext, hlen, ?_, covered_strct hcov⟩
        rw [mirror, hfs]
      | err e => cases hrun
      | panicked m => cases hrun
      | fuelOut => cases hrun
    | ptr ety a? =>
      rw [anything_ptr, andMask_noHooks] at hrun
      cases a? with
      | none =>
        obtain ⟨hv, hs⟩ := pointer_nil_inv hrun
        rw [hv, hs]
        exact ⟨hσ, regExt_refl _, le_refl _, by rw [mirror],
          covered_empty (by rw [ptrOccs])⟩
      | some a =>
        exact pointer_post E H P _ hH
          (fun w P' σw w' σw' ho hn hr hrune => ih w P' σw ho hn hr w' σw' hrune)
          ety a σ hocc hσ v' σ' hrun

/-- Inversion of a `Mask` call that returned normally with a nil error:
the engine succeeded, and the returned value is the engine's copy (or the
zero value when the engine returned the nil interface unchanged). -/
theorem mask_ret_none_inv {env : HookEnv} {fuel : Nat} {H : List Val} {x y : Val} {σ' : St}
    (hrun : Mask env fuel H x = (.ret y none, σ')) :
    ∃ out, _anything env fuel x ⟨H, [], []⟩ = (.ok out, σ') ∧
      ((out = .invalid ∧ y = zeroVal x) ∨ (out ≠ .invalid ∧ y = out)) := by
  rcases h0 : _anything env fuel x ⟨H, [], []⟩ with ⟨r0, σ0⟩
  simp only [Mask, h0] at hrun
  cases r0 with
  | ok out =>
    cases out
    case invalid =>
      cases hrun
      exact ⟨_, rfl, Or.inl ⟨rfl, rfl⟩⟩
    case atom ty d =>
      replace hrun : (if tyOf (Val.atom ty d) = tyOf x then (MRes.ret (Val.atom ty d) none, σ0)
          else (MRes.panicked "interface conversion", σ0)) = (MRes.ret y none, σ') := hrun
      by_cases hty : tyOf (Val.atom ty d) = tyOf x
      · rw [if_pos hty] at hrun
        cases hrun
        exact ⟨_, rfl, Or.inr ⟨fun hc => Val.noConfusion hc, rfl⟩⟩
      · rw [if_neg hty] at hrun
        cases hrun
    case arr ty ety es =>
      replace hrun : (if tyOf (Val.arr ty ety es) = tyOf x then (MRes.ret (Val.arr ty ety es) none, σ0)
          else (MRes.panicked "interface conversion", σ0)) = (MRes.ret y none, σ') := hrun
      by_cases hty : tyOf (Val.arr ty ety es) = tyOf x
      · rw [if_pos hty] at hrun
        cases hrun
        exact ⟨_, rfl, Or.inr ⟨fun hc => Val.noConfusion hc, rfl⟩⟩
      · rw [if_neg hty] at hrun
        cases hrun
    case slice ty o =>
      replace hrun : (if tyOf (Val.slice ty o) = tyOf x then (MRes.ret (Val.slice ty o) none, σ0)
          else (MRes.panicked "interface conversion", σ0)) = (MRes.ret y none, σ') := hrun
      by_cases hty : tyOf (Val.slice ty o) = tyOf x
      · rw [if_pos hty] at hrun
        cases hrun
        exact ⟨_, rfl, Or.inr ⟨fun hc => Val.noConfusion hc, rfl⟩⟩
      · rw [if_neg hty] at hrun
        cases hrun
    case mp ty es =>
      replace hrun : (if tyOf (Val.mp ty es) = tyOf x then (MRes.ret (Val.mp ty es) none, σ0)
          else (MRes.panicked "interface conversion", σ0)) = (MRes.ret y none, σ') := hrun
      by_cases hty : tyOf (Val.mp ty es) = tyOf x
      · rw [if_pos hty] at hrun
        cases hrun
        exact ⟨_, rfl, Or.inr ⟨fun hc => Val.noConfusion hc, rfl⟩⟩
      · rw [if_neg hty] at hrun
        cases hrun
    case ptr ety a? =>
      replace hrun : (if tyOf (Val.ptr ety a?) = tyOf x then (MRes.ret (Val.ptr ety a?) none, σ0)
          else (MRes.panicked "interface conversion", σ0)) = (MRes.ret y none, σ') := hrun
      by_cases hty : tyOf (Val.ptr ety a?) = tyOf x
      · rw [if_pos hty] at hrun
        cases hrun
        exact ⟨_, rfl, Or.inr ⟨fun hc => Val.noConfusion hc, rfl⟩⟩
      · rw [if_neg hty] at hrun
        cases hrun
    case strct ty fs =>
      replace hrun : (if tyOf (Val.strct ty fs) = tyOf x then (MRes.ret (Val.strct ty fs) none, σ0)
          else (MRes.panicked "interface conversion", σ0)) = (MRes.ret y none, σ') := hrun
      by_cases hty : tyOf (Val.strct ty fs) = tyOf x
      · rw [if_pos hty] at hrun
        cases hrun
        exact ⟨_, rfl, Or.inr ⟨fun hc => Val.noConfusion hc, rfl⟩⟩
      · rw [if_neg hty] at hrun
        cases hrun
    case func =>
      replace hrun : (if tyOf (Val.func) = tyOf x then (MRes.ret (Val.func) none, σ0)
          else (MRes.panicked "interface conversion", σ0)) = (MRes.ret y none, σ') := hrun
      by_cases hty : tyOf (Val.func) = tyOf x
      · rw [if_pos hty] at hrun
        cases hrun
        exact ⟨_, rfl, Or.inr ⟨fun hc => Val.noConfusion hc, rfl⟩⟩
      · rw [if_neg hty] at hrun
        cases hrun
    case chan =>
      replace hrun : (if tyOf (Val.chan) = tyOf x then (MRes.ret (Val.chan) none, σ0)
          else (MRes.panicked "interface conversion", σ0)) = (MRes.ret y none, σ') := hrun
      by_cases hty : tyOf (Val.chan) = tyOf x
      · rw [if_pos hty] at hrun
        cases hrun
        exact ⟨_, rfl, Or.inr ⟨fun hc => Val.noConfusion hc, rfl⟩⟩
      · rw [if_neg hty] at hrun
        cases hrun
    case unsafeptr =>
      replace hrun : (if tyOf (Val.unsafeptr) = tyOf x then (MRes.ret (Val.unsafeptr) none, σ0)
          else (MRes.panicked "interface conversion", σ0)) = (MRes.ret y none, σ') := hrun
      by_cases hty : tyOf (Val.unsafeptr) = tyOf x
      · rw [if_pos hty] at hrun
        cases hrun
        exact ⟨_, rfl, Or.inr ⟨fun hc => Val.noConfusion hc, rfl⟩⟩
      · rw [if_neg hty] at hrun
        cases hrun
  | err e => cases hrun
  | panicked m => cases hrun
  | fuelOut => cases hrun

/-- C1: on a hook-free run over a well-formed input configuration, when
`Mask` returns normally with a nil error the result is the structural
`mirror` of the input under the copy renaming `lookupAddr σ'.reg` — the
engine's normalizations included (a nil slice becomes a present empty
slice and non-exported fields are zeroed, which is why the original
claim's plain deep-equality fails; see the counterexample) — with
independent fresh storage: the original heap prefix is intact, every
traversed original address is registered to a single fresh copy cell at or
beyond the original heap (so references that aliased the same original
target alias the same single new target, and a self-referential cell
yields a copy cell referring back to itself), distinct originals map to
distinct copy cells, and every copy cell holds the mirror of its original
cell under the same renaming. -/
theorem c1_amended_mirror_aliasing (E : Nat → String) (H : List Val) (x : Val)
    (fuel : Nat) (hwf : inputWf E H x) (y : Val) (σ' : St)
    (hrun : Mask noHooks fuel H x = (.ret y none, σ')) :
    y = mirror (lookupAddr σ'.reg) x ∧
    σ'.heap.take H.length = H ∧
    covered σ'.reg x ∧
    σ'.reg.Pairwise (fun e e' => e.1 ≠ e'.1) ∧
    σ'.reg.Pairwise (fun e e' => targD e ≠ targD e') ∧
    ∀ e ∈ σ'.reg, ∃ b, e.2 = Val.ptr (E e.1) (some b) ∧ e.1 < H.length ∧
      H.length ≤ b ∧ b < σ'.heap.length ∧
      σ'.heap.getD b .invalid = mirror (lookupAddr σ'.reg) (H.getD e.1 .invalid) ∧
      covered σ'.reg (H.getD e.1 .invalid) := by
  obtain ⟨hHwf, hxo, hxn⟩ := hwf
  have hσ0 : regWfE E H [] (⟨H, [], []⟩ : St) := by
    refine ⟨by simp, List.Pairwise.nil, List.Pairwise.nil, ?_, ?_⟩
    · intro p hp
      cases hp
    · intro e he
      cases he
  obtain ⟨out, h0, hy⟩ := mask_ret_none_inv hrun
  obtain ⟨hreg, hext, hlen, hmirr, hcov⟩ :=
    anything_mirror E H hHwf fuel x [] ⟨H, [], []⟩ hxo hxn hσ0 out σ' h0
  have hentries : ∀ e ∈ σ'.reg, ∃ b, e.2 = Val.ptr (E e.1) (some b) ∧ e.1 < H.length ∧
      H.length ≤ b ∧ b < σ'.heap.length ∧
      σ'.heap.getD b .invalid = mirror (lookupAddr σ'.reg) (H.getD e.1 .invalid) ∧
      covered σ'.reg (H.getD e.1 .invalid) := by
    intro e he
    obtain ⟨b, h1, h2, h3, h4, _, hcomp⟩ := hreg.2.2.2.2 e he
    obtain ⟨hcell, hcove⟩ := hcomp (List.not_mem_nil e.1)
    exact ⟨b, h1, h2, h3, h4, hcell, hcove⟩
  rcases hy with ⟨hoinv, hyz⟩ | ⟨honinv, rfl⟩
  · have hmx : mirror (lookupAddr σ'.reg) x = .invalid := by
      rw [← hmirr]
      exact hoinv
    have hx : x = .invalid := (mirror_invalid_iff _ x).mp hmx
    subst hx
    subst hyz
    refine ⟨?_, hreg.1, hcov, hreg.2.1, hreg.2.2.1, hentries⟩
    rw [show zeroVal Val.invalid = Val.invalid from by rw [zeroVal], mirror]
  · exact ⟨hmirr, hreg.1, hcov, hreg.2.1, hreg.2.2.1, hentries⟩

/-- C1 counterexample to the claim as stated: the returned copy is NOT in
general deep-equal to the input.  A record whose only field is
non-exported keeps the field's zero value in the copy, so `Mask` succeeds
with a nil error yet the copy differs from the original. -/
theorem c1_deep_equal_counterexample :
    (Mask noHooks 2 []
        (.strct "S" [("n", false, .atom "int" "7", .atom "int" "0")])).1 =
      .ret (.strct "S" [("n", false, .atom "int" "0", .atom "int" "0")]) none ∧
    Val.strct "S" [("n", false, .atom "int" "0", .atom "int" "0")] ≠
      Val.strct "S" [("n", false, .atom "int" "7", .atom "int" "0")] := by
  refine ⟨rfl, ?_⟩
  intro h
  simp at h

theorem c1_amended_mirror_aliasing_witness :
    inputWf (fun _ => "Foo") fooHeap (.ptr "Foo" (some 0)) ∧
    (Val.ptr "Foo" (some 1) =
        mirror (lookupAddr fooFinal.reg) (.ptr "Foo" (some 0)) ∧
      fooFinal.heap.take fooHeap.length = fooHeap ∧
      covered fooFinal.reg (.ptr "Foo" (some 0)) ∧
      fooFinal.reg.Pairwise (fun e e' => e.1 ≠ e'.1) ∧
      fooFinal.reg.Pairwise (fun e e' => targD e ≠ targD e') ∧
      ∀ e ∈ fooFinal.reg, ∃ b, e.2 = Val.ptr ((fun _ => "Foo") e.1) (some b) ∧
        e.1 < fooHeap.length ∧ fooHeap.length ≤ b ∧ b < fooFinal.heap.length ∧
        fooFinal.heap.getD b .invalid =
          mirror (lookupAddr fooFinal.reg) (fooHeap.getD e.1 .invalid) ∧
        covered fooFinal.reg (fooHeap.getD e.1 .invalid)) := by
  have hwf : inputWf (fun _ => "Foo") fooHeap (.ptr "Foo" (some 0)) := by
    refine ⟨?_, ?_, ?_⟩
    · intro c hc
      simp only [fooHeap, List.mem_singleton] at hc
      subst hc
      constructor
      · intro p hp
        simp [ptrOccs, ptrOccsF, ptrOccsL, fooHeap] at hp
        subst hp
        exact ⟨rfl, by simp [fooHeap]⟩
      · simp [namedArrFree, namedArrFreeF]
    · intro p hp
      simp [ptrOccs] at hp
      subst hp
      exact ⟨rfl, by simp [fooHeap]⟩
    · simp [namedArrFree]
  exact ⟨hwf, c1_amended_mirror_aliasing (fun _ => "Foo") fooHeap (.ptr "Foo" (some 0))
    10 hwf (.ptr "Foo" (some 1)) fooFinal rfl⟩
